import Mathlib

/-!
# ckcache: an expiring key/value cache table

A shallow embedding of `cacheItem.go` and `cacheTable.go`.

Modelling conventions

* Time.  Every `time.Now()` of the source is an explicit argument.  A reading is the
  monotonic clock value in nanoseconds, a `time.Duration` is a number of nanoseconds,
  and `now.Sub(accessedOn)` is the difference of two readings.  Both are integers: the
  difference of two monotonic readings never leaves the 64-bit range, and the only
  other arithmetic, `lifespan - now.Sub(accessedOn)`, is evaluated on the branch where
  `now.Sub(accessedOn) < lifespan`, where, `accessedOn` being an earlier reading than
  `now`, it lies between 1 and `lifespan`.  `accessCount` is a natural number: it
  starts at 0 and only `KeepAlive` adds 1 to it.
* The map.  `items` is an association list.  The order of the list stands for the order
  in which `range` happens to produce the entries, which Go leaves unspecified; a
  statement quantified over every list therefore covers every iteration order.  A Go
  map holds a key once, which is the predicate `UniqueKeys`.
* Pointers.  The table stores `*CacheItem`; the embedding stores the item itself and an
  operation that mutates the item through the pointer (`KeepAlive`) rewrites the entry
  of the list.
* Callbacks and the loader.  A callback is known by an identifier.  An operation
  returns, next to the new table and its Go result, the list of calls it made, in
  order; each call carries its arguments and the map as it stood when the call was
  made (what `Exists`, `Count` or `Foreach` would have reported to the callee).
  Callbacks are taken not to call back into the table.
* Timers.  `cleanupTimer` holds the delay of the timer and whether it is pending.  A
  call of `time.AfterFunc` is recorded in the list of calls, with its delay: the timer
  counts from that call, which comes after the sweep's loop and the callbacks run in
  it, not from the `time.Now()` the sweep took when it started.  The deadline of the
  pending timer is followed by `Timeline`, from the clock reading at each
  `time.AfterFunc`.
* Locks are not modelled: the embedding is the sequential behaviour of one caller.
-/

namespace Ckcache

/-- A reading of the monotonic clock, in nanoseconds (`time.Time` as returned by `time.Now()`). -/
abbrev Time := Int

/-- Nanoseconds (`time.Duration`). -/
abbrev Duration := Int

/-- Identity of a registered callback function. -/
abbrev Callback := Nat

/-- The struct `CacheItem` of `cacheItem.go` (without its lock). -/
structure CacheItem (κ ν : Type) where
  key : κ
  value : ν
  lifespan : Duration
  createdOn : Time
  accessedOn : Time
  accessCount : Nat
  aboutToExpire : List Callback
deriving DecidableEq

/-- The timer behind `cleanupTimer`: the delay it was created with, and whether it is
still pending (`Stop` and firing both clear `active`). -/
structure Timer where
  delay : Duration
  active : Bool
deriving DecidableEq

/-- The struct `CacheTable` of `cacheTable.go` (without its lock). -/
structure CacheTable (κ ν : Type) where
  name : String
  items : List (κ × CacheItem κ ν)
  cleanupTimer : Option Timer
  cleanupInterval : Duration
  loadValue : Option (κ → List ν → Option (CacheItem κ ν))
  addedItem : List Callback
  aboutToDeleteItem : List Callback

/-- One call made by the table to code outside it: a callback, the loader, or
`time.AfterFunc`.  `seen` is the map at the moment of the call. -/
inductive Event (κ ν : Type) where
  | addedItem (callback : Callback) (item : CacheItem κ ν) (seen : List (κ × CacheItem κ ν))
  | aboutToDeleteItem (callback : Callback) (item : CacheItem κ ν)
      (seen : List (κ × CacheItem κ ν))
  | aboutToExpire (callback : Callback) (key : κ) (seen : List (κ × CacheItem κ ν))
  | loadValue (key : κ) (args : List ν)
  | afterFunc (delay : Duration)
deriving DecidableEq

/-- What an operation leaves behind: the table, the Go return value, the calls made. -/
structure Outcome (κ ν ρ : Type) where
  table : CacheTable κ ν
  result : ρ
  trace : List (Event κ ν)

/-- The three clock readings of one insert: the two `time.Now()` of `NewCacheItem` and
the `time.Now()` of the `expirationCheck` that `addInternal` may run. -/
structure AddClock where
  created : Time
  accessed : Time
  sweep : Time
deriving DecidableEq

section Definitions

variable {κ ν : Type} [DecidableEq κ]

/-! ## cacheItem.go -/

/-- Source: `NewCacheItem(key, value, lifespan)`. -/
def NewCacheItem (key : κ) (value : ν) (lifespan : Duration) (createdNow accessedNow : Time) :
    CacheItem κ ν :=
  { key := key
    value := value
    lifespan := lifespan
    createdOn := createdNow
    accessedOn := accessedNow
    accessCount := 0
    aboutToExpire := [] }

/-- Source: `item.KeepAlive()`. -/
def CacheItem.KeepAlive (item : CacheItem κ ν) (now : Time) : CacheItem κ ν :=
  { item with accessedOn := now, accessCount := item.accessCount + 1 }

/-- Source: `item.RemoveAboutToExpireCallback()`. -/
def CacheItem.RemoveAboutToExpireCallback (item : CacheItem κ ν) : CacheItem κ ν :=
  { item with aboutToExpire := [] }

/-- Source: `item.SetAboutToExpireCallback(f)`. -/
def CacheItem.SetAboutToExpireCallback (item : CacheItem κ ν) (f : Callback) : CacheItem κ ν :=
  let cleared := if item.aboutToExpire.length > 0 then item.RemoveAboutToExpireCallback else item
  { cleared with aboutToExpire := cleared.aboutToExpire ++ [f] }

/-- Source: `item.AddAboutToExpireCallback(f)`. -/
def CacheItem.AddAboutToExpireCallback (item : CacheItem κ ν) (f : Callback) : CacheItem κ ν :=
  { item with aboutToExpire := item.aboutToExpire ++ [f] }

/-! ## The map `items` -/

/-- Source: `item, ok := items[key]`. -/
def mapGet : List (κ × CacheItem κ ν) → κ → Option (CacheItem κ ν)
  | [], _ => none
  | e :: rest, key => if e.1 = key then some e.2 else mapGet rest key

/-- Source: `delete(items, key)`. -/
def mapDelete (items : List (κ × CacheItem κ ν)) (key : κ) : List (κ × CacheItem κ ν) :=
  items.filter (fun e => decide (e.1 ≠ key))

/-- Source: `items[key] = item`. -/
def mapSet (items : List (κ × CacheItem κ ν)) (key : κ) (item : CacheItem κ ν) :
    List (κ × CacheItem κ ν) :=
  mapDelete items key ++ [(key, item)]

/-- Rewrites the item stored under `key`: the effect, on the map, of mutating the item
through the pointer the map holds. -/
def mapModify (items : List (κ × CacheItem κ ν)) (key : κ)
    (f : CacheItem κ ν → CacheItem κ ν) : List (κ × CacheItem κ ν) :=
  items.map (fun e => if e.1 = key then (e.1, f e.2) else e)

/-- A Go map holds each key once. -/
def UniqueKeys (items : List (κ × CacheItem κ ν)) : Prop :=
  (items.map Prod.fst).Nodup

instance (items : List (κ × CacheItem κ ν)) : Decidable (UniqueKeys items) := by
  unfold UniqueKeys
  infer_instance

/-- Every item is stored under its own key, as `addInternal` does (`items[item.key] = item`). -/
def KeyedByItemKey (items : List (κ × CacheItem κ ν)) : Prop :=
  ∀ e ∈ items, e.2.key = e.1

instance (items : List (κ × CacheItem κ ν)) : Decidable (KeyedByItemKey items) := by
  unfold KeyedByItemKey
  infer_instance

/-! ## cache.go -/

/-- The table literal built by `Cache(name)` for a name not yet registered. -/
def newTable (name : String) : CacheTable κ ν :=
  { name := name
    items := []
    cleanupTimer := none
    cleanupInterval := 0
    loadValue := none
    addedItem := []
    aboutToDeleteItem := [] }

/-! ## cacheTable.go -/

/-- Source: `table.Count()`. -/
def CacheTable.Count (table : CacheTable κ ν) : Nat :=
  table.items.length

/-- Source: `table.Exists(key)`. -/
def CacheTable.Exists (table : CacheTable κ ν) (key : κ) : Bool :=
  (mapGet table.items key).isSome

/-- Source: `table.deleteInternal(key)`. -/
def CacheTable.deleteInternal (table : CacheTable κ ν) (key : κ) :
    Outcome κ ν (Except String (CacheItem κ ν)) :=
  match mapGet table.items key with
  | none => ⟨table, .error "Key is not found", []⟩
  | some item =>
    let aboutDeleteItem := table.aboutToDeleteItem
    let calls₁ := aboutDeleteItem.map (fun callback =>
      Event.aboutToDeleteItem callback item table.items)
    let calls₂ := item.aboutToExpire.map (fun callback =>
      Event.aboutToExpire callback key table.items)
    ⟨{ table with items := mapDelete table.items key }, .ok item, calls₁ ++ calls₂⟩

/-- Source: `table.Delete(key)`. -/
def CacheTable.Delete (table : CacheTable κ ν) (key : κ) :
    Outcome κ ν (Except String (CacheItem κ ν)) :=
  table.deleteInternal key

/-- The loop variables of `expirationCheck`. -/
structure SweepState (κ ν : Type) where
  table : CacheTable κ ν
  smallestDuration : Duration
  trace : List (Event κ ν)

/-- One turn of the `for key, item := range table.items` loop of `expirationCheck`. -/
def expirationStep (now : Time) (s : SweepState κ ν) (entry : κ × CacheItem κ ν) :
    SweepState κ ν :=
  let lifespan := entry.2.lifespan
  let accessedOn := entry.2.accessedOn
  if lifespan = 0 then s
  else if now - accessedOn ≥ lifespan then
    let removed := s.table.deleteInternal entry.1
    { s with table := removed.table, trace := s.trace ++ removed.trace }
  else if s.smallestDuration = 0 ∨ lifespan - (now - accessedOn) < s.smallestDuration then
    { s with smallestDuration := lifespan - (now - accessedOn) }
  else s

/-- Source: `table.expirationCheck()`, with `now` the reading of its `time.Now()`.  The loop
deletes only the entry it is looking at, so `range` produces every entry of the map
as it was at the start exactly once.  The call of `time.AfterFunc` is the last call of
the trace. -/
def CacheTable.expirationCheck (table : CacheTable κ ν) (now : Time) : Outcome κ ν Unit :=
  let stopped : CacheTable κ ν :=
    { table with cleanupTimer := table.cleanupTimer.map (fun tm => { tm with active := false }) }
  let s := table.items.foldl (expirationStep now) ⟨stopped, 0, []⟩
  let swept : CacheTable κ ν := { s.table with cleanupInterval := s.smallestDuration }
  if s.smallestDuration > 0 then
    ⟨{ swept with cleanupTimer := some ⟨s.smallestDuration, true⟩ }, (),
      s.trace ++ [Event.afterFunc s.smallestDuration]⟩
  else
    ⟨swept, (), s.trace⟩

/-- The pending timer fires at `now`: `go table.expirationCheck()`.  Nothing happens when
no timer is pending. -/
def CacheTable.timerFires (table : CacheTable κ ν) (now : Time) : Outcome κ ν Unit :=
  match table.cleanupTimer with
  | some tm =>
    if tm.active then
      CacheTable.expirationCheck { table with cleanupTimer := some { tm with active := false } } now
    else ⟨table, (), []⟩
  | none => ⟨table, (), []⟩

/-- Source: `table.addInternal(item)`, with `sweepNow` the clock reading of the `expirationCheck`
it may run. -/
def CacheTable.addInternal (table : CacheTable κ ν) (item : CacheItem κ ν) (sweepNow : Time) :
    Outcome κ ν Unit :=
  let stored : CacheTable κ ν := { table with items := mapSet table.items item.key item }
  let expDur := table.cleanupInterval
  let addedItem := table.addedItem
  let calls := addedItem.map (fun callback => Event.addedItem callback item stored.items)
  if item.lifespan > 0 ∧ (expDur = 0 ∨ item.lifespan < expDur) then
    let checked := stored.expirationCheck sweepNow
    ⟨checked.table, (), calls ++ checked.trace⟩
  else
    ⟨stored, (), calls⟩

/-- Source: `table.Add(key, lifespan, value)`. -/
def CacheTable.Add (table : CacheTable κ ν) (key : κ) (lifespan : Duration) (value : ν)
    (clock : AddClock) : Outcome κ ν (CacheItem κ ν) :=
  let item := NewCacheItem key value lifespan clock.created clock.accessed
  let added := table.addInternal item clock.sweep
  ⟨added.table, item, added.trace⟩

/-- Source: `table.NotFoundAdd(key, lifespan, value)`. -/
def CacheTable.NotFoundAdd (table : CacheTable κ ν) (key : κ) (lifespan : Duration)
    (value : ν) (clock : AddClock) : Outcome κ ν Bool :=
  match mapGet table.items key with
  | some _ => ⟨table, false, []⟩
  | none =>
    let item := NewCacheItem key value lifespan clock.created clock.accessed
    let added := table.addInternal item clock.sweep
    ⟨added.table, true, added.trace⟩

/-- Source: `table.Value(key, args...)`: `now` is the clock reading of `KeepAlive` on a hit,
`clock` the readings of the `Add` made on a miss that the loader fills. -/
def CacheTable.Value (table : CacheTable κ ν) (key : κ) (args : List ν) (now : Time)
    (clock : AddClock) :
    Outcome κ ν (Except String (CacheItem κ ν)) :=
  match mapGet table.items key with
  | some item =>
    ⟨{ table with items := mapModify table.items key (fun it => it.KeepAlive now) },
      .ok (item.KeepAlive now), []⟩
  | none =>
    match table.loadValue with
    | some loadValue =>
      match loadValue key args with
      | some item =>
        let added := table.Add key item.lifespan item.value clock
        ⟨added.table, .ok item, Event.loadValue key args :: added.trace⟩
      | none => ⟨table, .error "loadValue is null", [Event.loadValue key args]⟩
    | none => ⟨table, .error "item is not found", []⟩

/-- Source: `table.Flush()`.  Its body calls no callback and no loader. -/
def CacheTable.Flush (table : CacheTable κ ν) : Outcome κ ν Unit :=
  ⟨{ table with
      items := []
      cleanupInterval := 0
      cleanupTimer := table.cleanupTimer.map (fun tm => { tm with active := false }) },
    (), []⟩

/-- Source: `table.SetValueLoader(f)`. -/
def CacheTable.SetValueLoader (table : CacheTable κ ν)
    (f : κ → List ν → Option (CacheItem κ ν)) :
    CacheTable κ ν :=
  { table with loadValue := some f }

/-- Source: `table.RemoveAddedItemCallback()`. -/
def CacheTable.RemoveAddedItemCallback (table : CacheTable κ ν) : CacheTable κ ν :=
  { table with addedItem := [] }

/-- Source: `table.SetAddedItemCallback(f)`. -/
def CacheTable.SetAddedItemCallback (table : CacheTable κ ν) (f : Callback) : CacheTable κ ν :=
  let cleared := if table.addedItem.length > 0 then table.RemoveAddedItemCallback else table
  { cleared with addedItem := cleared.addedItem ++ [f] }

/-- Source: `table.AddAddedItemCallback(f)`. -/
def CacheTable.AddAddedItemCallback (table : CacheTable κ ν) (f : Callback) : CacheTable κ ν :=
  { table with addedItem := table.addedItem ++ [f] }

/-- Source: `table.RemoveAboutToDeleteItemCallback()`. -/
def CacheTable.RemoveAboutToDeleteItemCallback (table : CacheTable κ ν) : CacheTable κ ν :=
  { table with aboutToDeleteItem := [] }

/-- Source: `table.SetAboutToDeleteItemCallback(f)`. -/
def CacheTable.SetAboutToDeleteItemCallback (table : CacheTable κ ν) (f : Callback) :
    CacheTable κ ν :=
  let cleared :=
    if table.aboutToDeleteItem.length > 0 then table.RemoveAddedItemCallback else table
  { cleared with aboutToDeleteItem := cleared.aboutToDeleteItem ++ [f] }

/-- Source: `table.AddAboutToDeleteItemCallback(f)`. -/
def CacheTable.AddAboutToDeleteItemCallback (table : CacheTable κ ν) (f : Callback) :
    CacheTable κ ν :=
  { table with aboutToDeleteItem := table.aboutToDeleteItem ++ [f] }

/-! ## Runs of operations -/

/-- One call on the table, with the clock readings it takes. -/
inductive Op (κ ν : Type) where
  | add (key : κ) (lifespan : Duration) (value : ν) (clock : AddClock)
  | notFoundAdd (key : κ) (lifespan : Duration) (value : ν) (clock : AddClock)
  | value (key : κ) (args : List ν) (now : Time) (clock : AddClock)
  | delete (key : κ)
  | flush
  | expirationCheck (now : Time)
  | timerFires (now : Time)

/-- The table after one call. -/
def Op.apply (table : CacheTable κ ν) : Op κ ν → CacheTable κ ν
  | .add key lifespan v clock => (table.Add key lifespan v clock).table
  | .notFoundAdd key lifespan v clock => (table.NotFoundAdd key lifespan v clock).table
  | .value key args now clock => (table.Value key args now clock).table
  | .delete key => (table.Delete key).table
  | .flush => table.Flush.table
  | .expirationCheck now => (table.expirationCheck now).table
  | .timerFires now => (table.timerFires now).table

/-- The table after a sequence of calls, made one after the other. -/
def run (table : CacheTable κ ν) (ops : List (Op κ ν)) : CacheTable κ ν :=
  ops.foldl Op.apply table

/-- A schedule of lookups of `key` and sweeps in which every sweep comes less than
`lifespan` after the latest access of `key`; `last` is the time of that access when
the schedule starts. -/
def keptAlive (key : κ) (lifespan : Duration) : Time → List (Op κ ν) → Prop
  | _, [] => True
  | _, .value k _ now _ :: rest => k = key ∧ keptAlive key lifespan now rest
  | last, .expirationCheck now :: rest =>
    now - last < lifespan ∧ keptAlive key lifespan last rest
  | last, .timerFires now :: rest => now - last < lifespan ∧ keptAlive key lifespan last rest
  | _, _ :: _ => False

/-- A call that neither inserts under `key`, nor deletes `key`, nor flushes. -/
def Op.spares (key : κ) : Op κ ν → Prop
  | .add k _ _ _ => k ≠ key
  | .notFoundAdd k _ _ _ => k ≠ key
  | .delete k => k ≠ key
  | .flush => False
  | _ => True

/-- Whether a sweep timer is pending: `cleanupTimer` is set and neither stopped nor
fired. -/
def CacheTable.timerPending (table : CacheTable κ ν) : Bool :=
  match table.cleanupTimer with
  | some tm => tm.active
  | none => false

/-- The idle state of the sweep schedule: no timer pending and `cleanupInterval == 0`. -/
def CacheTable.Idle (table : CacheTable κ ν) : Prop :=
  table.cleanupInterval = 0 ∧ table.timerPending = false

/-- The armed state of the sweep schedule: a timer is pending, and `cleanupInterval` is
its positive delay. -/
def CacheTable.Armed (table : CacheTable κ ν) : Prop :=
  0 < table.cleanupInterval ∧
    ∃ tm, table.cleanupTimer = some tm ∧ tm.active = true ∧ tm.delay = table.cleanupInterval

/-- The time an entry has left at `now`: `lifespan - now.Sub(accessedOn)`. -/
def remaining (now : Time) (item : CacheItem κ ν) : Duration :=
  item.lifespan - (now - item.accessedOn)

/-- The call of `time.AfterFunc` at the end of a sweep that leaves `cleanupInterval`
at `delay`: one call when `delay` is positive, none otherwise. -/
def armCalls (delay : Duration) : List (Event κ ν) :=
  if 0 < delay then [Event.afterFunc delay] else []

/-- Whether a call is a call of `time.AfterFunc`. -/
def Event.isArm : Event κ ν → Bool
  | .afterFunc _ => true
  | _ => false

/-- Whether a call is a call of a pre-delete or pre-remove callback. -/
def Event.isRemoval : Event κ ν → Bool
  | .aboutToDeleteItem _ _ _ => true
  | .aboutToExpire _ _ _ => true
  | _ => false

/-- The clock readings of a call are taken in program order and none is earlier than
`lo`, the latest reading before the call. -/
def Op.within (lo : Time) : Op κ ν → Prop
  | .add _ _ _ clock =>
    lo ≤ clock.created ∧ clock.created ≤ clock.accessed ∧ clock.accessed ≤ clock.sweep
  | .notFoundAdd _ _ _ clock =>
    lo ≤ clock.created ∧ clock.created ≤ clock.accessed ∧ clock.accessed ≤ clock.sweep
  | .value _ _ now clock =>
    lo ≤ now ∧ now ≤ clock.created ∧ clock.created ≤ clock.accessed ∧
      clock.accessed ≤ clock.sweep
  | .delete _ => True
  | .flush => True
  | .expirationCheck now => lo ≤ now
  | .timerFires now => lo ≤ now

/-- The latest clock reading of a call, `lo` for a call that takes none. -/
def Op.finish (lo : Time) : Op κ ν → Time
  | .add _ _ _ clock => clock.sweep
  | .notFoundAdd _ _ _ clock => clock.sweep
  | .value _ _ _ clock => clock.sweep
  | .delete _ => lo
  | .flush => lo
  | .expirationCheck now => now
  | .timerFires now => now

/-- The delay a call of `time.AfterFunc` was made with; nothing for any other call. -/
def Event.armDelay : Event κ ν → Option Duration
  | .afterFunc delay => some delay
  | _ => none

/-- The delay of the latest call of `time.AfterFunc` among `calls`, if one was made. -/
def armedDelay (calls : List (Event κ ν)) : Option Duration :=
  (calls.filterMap Event.armDelay).getLast?

/-- The calls made by one call on the table. -/
def Op.calls (table : CacheTable κ ν) : Op κ ν → List (Event κ ν)
  | .add key lifespan v clock => (table.Add key lifespan v clock).trace
  | .notFoundAdd key lifespan v clock => (table.NotFoundAdd key lifespan v clock).trace
  | .value key args now clock => (table.Value key args now clock).trace
  | .delete key => (table.Delete key).trace
  | .flush => table.Flush.trace
  | .expirationCheck now => (table.expirationCheck now).trace
  | .timerFires now => (table.timerFires now).trace

/-- One call on the table, with `armed`, the clock reading at which the sweep it runs
reaches `time.AfterFunc`, if it runs a sweep and the sweep arms a timer. -/
structure TimedOp (κ ν : Type) where
  op : Op κ ν
  armed : Time

/-- The table, and the deadline of its pending sweep timer: the clock reading at which
the runtime makes the timer fire.  Nothing when no timer is pending. -/
structure Timeline (κ ν : Type) where
  table : CacheTable κ ν
  deadline : Option Time

/-- The deadline after a call that made `calls` and left `table`.  `time.AfterFunc(d, f)`
sets the deadline of its timer to the clock reading at the call plus `d`; a call that
does not reach `time.AfterFunc` leaves the deadline of a timer that is still pending,
and no deadline when the timer was stopped or has fired. -/
def nextDeadline (previous : Option Time) (table : CacheTable κ ν)
    (calls : List (Event κ ν)) (armed : Time) : Option Time :=
  match armedDelay calls with
  | some delay => some (armed + delay)
  | none => if table.timerPending then previous else none

/-- The table and the deadline after one call. -/
def Timeline.step (s : Timeline κ ν) (c : TimedOp κ ν) : Timeline κ ν :=
  { table := c.op.apply s.table
    deadline := nextDeadline s.deadline (c.op.apply s.table) (c.op.calls s.table) c.armed }

/-- The table and the deadline after a sequence of calls, made one after the other on
a table with no timer pending. -/
def timeline (table : CacheTable κ ν) (ops : List (TimedOp κ ν)) : Timeline κ ν :=
  ops.foldl Timeline.step ⟨table, none⟩

/-- The clock does not go back over a sequence of calls that starts at `lo`, and each
call reaches the point where a sweep calls `time.AfterFunc` no earlier than its other
clock readings and at most `lag` after the latest of them, which for a call that runs a
sweep is the `time.Now()` of the sweep. -/
def timedOrdered (lag : Duration) : Time → List (TimedOp κ ν) → Prop
  | _, [] => True
  | lo, c :: rest =>
    c.op.within lo ∧ c.op.finish lo ≤ c.armed ∧ c.armed ≤ c.op.finish lo + lag ∧
      timedOrdered lag c.armed rest

/-- The state of the schedule at clock reading `now`: `cleanupInterval` is not negative,
no entry was accessed after `now`, a positive `cleanupInterval` is the delay of a pending
timer whose deadline is `cleanupInterval` after a reading no later than `now`, and when
the map holds an entry with lifespan > 0 then `cleanupInterval` is positive and the
deadline is no later than `lag` after `accessedOn + lifespan` of the entry. -/
def OnTime (lag : Duration) (s : Timeline κ ν) (now : Time) : Prop :=
  0 ≤ s.table.cleanupInterval ∧
  (∀ e ∈ s.table.items, e.2.accessedOn ≤ now) ∧
  (0 < s.table.cleanupInterval →
    s.table.cleanupTimer = some ⟨s.table.cleanupInterval, true⟩ ∧
      ∃ armed, s.deadline = some (armed + s.table.cleanupInterval) ∧ armed ≤ now) ∧
  (∀ e ∈ s.table.items, 0 < e.2.lifespan →
    0 < s.table.cleanupInterval ∧
      ∀ d, s.deadline = some d → d ≤ e.2.accessedOn + e.2.lifespan + lag)

/-- The test of `expirationCheck` that sends an entry to `deleteInternal`. -/
def expiredAt (now : Time) (item : CacheItem κ ν) : Bool :=
  decide (item.lifespan ≠ 0) && decide (now - item.accessedOn ≥ item.lifespan)

/-- The calls `deleteInternal` makes for one removal, per the specification: every
pre-delete callback of the table with the entry, then every pre-remove callback of
the entry with the key, each seeing the map `seen`. -/
def removalCalls (aboutToDeleteItem : List Callback) (key : κ) (item : CacheItem κ ν)
    (seen : List (κ × CacheItem κ ν)) : List (Event κ ν) :=
  aboutToDeleteItem.map (fun callback => Event.aboutToDeleteItem callback item seen) ++
    item.aboutToExpire.map (fun callback => Event.aboutToExpire callback key seen)

/-- The key a removal call is about: the key of the entry handed to a pre-delete
callback, the key handed to a pre-remove callback. -/
def Event.removalKey : Event κ ν → Option κ
  | .aboutToDeleteItem _ item _ => some item.key
  | .aboutToExpire _ key _ => some key
  | _ => none

/-- Whether a call is a call of the loader. -/
def Event.isLoad : Event κ ν → Bool
  | .loadValue _ _ => true
  | _ => false

/-- Whether a call is a call of an on-insert callback. -/
def Event.isAdded : Event κ ν → Bool
  | .addedItem _ _ _ => true
  | _ => false

/-- The map holds `key`, and every entry it holds under `key` satisfies `P`. -/
def StoredWith (items : List (κ × CacheItem κ ν)) (key : κ) (P : CacheItem κ ν → Prop) : Prop :=
  (∃ found, mapGet items key = some found) ∧ ∀ e ∈ items, e.1 = key → P e.2

/-! ## Scenarios -/

/-- One millisecond, in nanoseconds (`time.Millisecond`). -/
def ms : Duration := 1000000

/-- A table after `Add("long", 500ms, "a")` and `Add("short", 50ms, "b")`, every clock
reading being 0. -/
def twoLifespans : CacheTable String String :=
  (((newTable "t").Add "long" (500 * ms) "a" ⟨0, 0, 0⟩).table.Add "short" (50 * ms) "b"
    ⟨0, 0, 0⟩).table

/-- A table after `Add("k", 100ms, "v")`, every clock reading being 0. -/
def oneShortLived : CacheTable String String :=
  ((newTable "t").Add "k" (100 * ms) "v" ⟨0, 0, 0⟩).table

/-- Lookups of "k" at 90ms, 180ms and 270ms, with a sweep 10ms before each of them and a
last sweep at 350ms. -/
def refreshing : List (Op String String) :=
  [.expirationCheck (80 * ms), .value "k" [] (90 * ms) ⟨90 * ms, 90 * ms, 90 * ms⟩,
   .timerFires (170 * ms), .value "k" [] (180 * ms) ⟨180 * ms, 180 * ms, 180 * ms⟩,
   .expirationCheck (260 * ms), .value "k" [] (270 * ms) ⟨270 * ms, 270 * ms, 270 * ms⟩,
   .expirationCheck (350 * ms)]

/-- Sweeps, a timer, lookups, and inserts and deletes of keys other than "k". -/
def busy : List (Op String String) :=
  [.expirationCheck (1000 * ms), .add "a" (5 * ms) "x" ⟨1000 * ms, 1000 * ms, 1000 * ms⟩,
   .timerFires (1005 * ms), .value "k" [] (2000 * ms) ⟨2000 * ms, 2000 * ms, 2000 * ms⟩,
   .notFoundAdd "b" (-1) "y" ⟨2000 * ms, 2000 * ms, 2000 * ms⟩, .delete "b",
   .value "c" [] (3000 * ms) ⟨3000 * ms, 3000 * ms, 3000 * ms⟩,
   .expirationCheck (1000000 * ms)]

/-- An entry "i" of lifespan 10ms, last accessed at time 0. -/
def watchedI : CacheItem String String :=
  { key := "i", value := "x", lifespan := 10 * ms, createdOn := 0, accessedOn := 0,
    accessCount := 0, aboutToExpire := [] }

/-- An immortal entry "j" with pre-remove callback 9. -/
def watchedJ : CacheItem String String :=
  { key := "j", value := "y", lifespan := 0, createdOn := 0, accessedOn := 0,
    accessCount := 3, aboutToExpire := [9] }

/-- An entry "k" of lifespan 20ms, last accessed at time 0, with pre-remove callbacks 7
and 8. -/
def watchedK : CacheItem String String :=
  { key := "k", value := "z", lifespan := 20 * ms, createdOn := 0, accessedOn := 0,
    accessCount := 0, aboutToExpire := [7, 8] }

/-- A table with pre-delete callbacks 1 and 2 holding "i", "j" and "k", in this order. -/
def watched : CacheTable String String :=
  { name := "t"
    items := [("i", watchedI), ("j", watchedJ), ("k", watchedK)]
    cleanupTimer := some ⟨10 * ms, true⟩
    cleanupInterval := 10 * ms
    loadValue := none
    addedItem := [5]
    aboutToDeleteItem := [1, 2] }

/-- The loader of the scenario: `NewCacheItem(k, "loaded:"+k, 0)`, built at time 5. -/
def prefixLoader : String → List String → Option (CacheItem String String) :=
  fun k _ => some (NewCacheItem k ("loaded:" ++ k) 0 5 5)

/-- A loader that answers under a key of its own, "other". -/
def otherKeyLoader : String → List String → Option (CacheItem String String) :=
  fun _ _ => some (NewCacheItem "other" "v" 0 5 5)

/-- A loader that answers under the key asked for, with a pre-remove callback 7 set on
the entry it returns. -/
def callbackLoader : String → List String → Option (CacheItem String String) :=
  fun k _ => some ((NewCacheItem k "v" 0 5 5).SetAboutToExpireCallback 7)

/-- A loader whose entries live 1ms. -/
def shortLoader : String → List String → Option (CacheItem String String) :=
  fun k _ => some (NewCacheItem k "v" (1 * ms) 5 5)

/-- A table after `SetAddedItemCallback(cb1)` and `AddAddedItemCallback(cb2)`, the
callbacks being known as 1 and 2. -/
def twoCallbacks : CacheTable String String :=
  ((newTable "t").SetAddedItemCallback 1).AddAddedItemCallback 2

/-- An empty table with one pre-delete callback registered. -/
def slowTable : CacheTable String String :=
  (newTable "t").AddAboutToDeleteItemCallback 1

/-- Two inserts at time 0, of "i" for 10ms and of "k2" for 100ms, then the timer firing
at its deadline, 10ms: the sweep reads the clock at 10ms, removes "i", and reaches
`time.AfterFunc` at 1010ms, one second later. -/
def lateRun : List (TimedOp String String) :=
  [⟨.add "i" (10 * ms) "v" ⟨0, 0, 0⟩, 0⟩,
   ⟨.add "k2" (100 * ms) "w" ⟨0, 0, 0⟩, 0⟩,
   ⟨.timerFires (10 * ms), 1010 * ms⟩]

end Definitions

/-! ## Facts about the map -/

section MapFacts

variable {κ ν : Type} [DecidableEq κ]

theorem mapGet_eq_none_iff (items : List (κ × CacheItem κ ν)) (key : κ) :
    mapGet items key = none ↔ ∀ e ∈ items, e.1 ≠ key := by
  induction items with
  | nil => simp [mapGet]
  | cons e rest ih =>
    by_cases h : e.1 = key
    · simp [mapGet, h]
    · simp [mapGet, h, ih]

theorem mapGet_mem {items : List (κ × CacheItem κ ν)} {key : κ} {item : CacheItem κ ν}
    (h : mapGet items key = some item) : (key, item) ∈ items := by
  induction items with
  | nil => simp [mapGet] at h
  | cons e rest ih =>
    by_cases hk : e.1 = key
    · simp only [mapGet, hk, if_true, Option.some.injEq] at h
      have : e = (key, item) := Prod.ext hk h
      simp [this]
    · simp only [mapGet, hk, if_false] at h
      exact List.mem_cons_of_mem _ (ih h)

theorem mapGet_of_mem {items : List (κ × CacheItem κ ν)} (hu : UniqueKeys items)
    {e : κ × CacheItem κ ν} (he : e ∈ items) : mapGet items e.1 = some e.2 := by
  induction items with
  | nil => simp at he
  | cons x rest ih =>
    have hu' : x.1 ∉ rest.map Prod.fst ∧ UniqueKeys rest := by
      simpa [UniqueKeys] using hu
    rcases List.mem_cons.mp he with rfl | hmem
    · simp [mapGet]
    · have hne : x.1 ≠ e.1 := by
        intro hx
        exact hu'.1 (hx ▸ List.mem_map_of_mem Prod.fst hmem)
      simp [mapGet, hne, ih hu'.2 hmem]

omit [DecidableEq κ] in
theorem uniqueKeys_filter {items : List (κ × CacheItem κ ν)} (hu : UniqueKeys items)
    (p : κ × CacheItem κ ν → Bool) : UniqueKeys (items.filter p) := by
  unfold UniqueKeys at *
  exact List.Nodup.sublist (List.Sublist.map _ (List.filter_sublist _)) hu

theorem mapGet_filter {items : List (κ × CacheItem κ ν)} (hu : UniqueKeys items)
    (p : κ × CacheItem κ ν → Bool) (key : κ) :
    mapGet (items.filter p) key = (mapGet items key).filter (fun item => p (key, item)) := by
  induction items with
  | nil => simp [mapGet]
  | cons x rest ih =>
    have hu' : x.1 ∉ rest.map Prod.fst ∧ UniqueKeys rest := by
      simpa [UniqueKeys] using hu
    by_cases hk : x.1 = key
    · have hx : x = (key, x.2) := Prod.ext hk rfl
      have hnone : mapGet rest key = none := by
        rw [mapGet_eq_none_iff]
        intro e he hek
        exact hu'.1 (hk ▸ hek ▸ List.mem_map_of_mem Prod.fst he)
      by_cases hp : p x = true
      · have hp' : p (key, x.2) = true := hx ▸ hp
        simp [List.filter_cons, hp, mapGet, hk, Option.filter, hp']
      · have hp' : p (key, x.2) = false := by
          rw [← hx]; simpa using hp
        have hnone' : mapGet (rest.filter p) key = none := by
          rw [ih hu'.2, hnone]; rfl
        simp [List.filter_cons, hp, mapGet, hk, Option.filter, hp', hnone']
    · by_cases hp : p x = true
      · simp [List.filter_cons, hp, mapGet, hk, ih hu'.2]
      · simp [List.filter_cons, hp, mapGet, hk, ih hu'.2]

theorem mapDelete_cons (e : κ × CacheItem κ ν) (rest : List (κ × CacheItem κ ν)) (key : κ) :
    mapDelete (e :: rest) key =
      if e.1 = key then mapDelete rest key else e :: mapDelete rest key := by
  by_cases h : e.1 = key <;> simp [mapDelete, List.filter_cons, h]

theorem mapModify_cons (e : κ × CacheItem κ ν) (rest : List (κ × CacheItem κ ν)) (key : κ)
    (f : CacheItem κ ν → CacheItem κ ν) :
    mapModify (e :: rest) key f =
      (if e.1 = key then (e.1, f e.2) else e) :: mapModify rest key f := by
  simp [mapModify]

theorem mapDelete_of_absent {items : List (κ × CacheItem κ ν)} {key : κ}
    (h : mapGet items key = none) : mapDelete items key = items := by
  rw [mapGet_eq_none_iff] at h
  unfold mapDelete
  rw [List.filter_eq_self]
  intro e he
  simpa using h e he

theorem mapGet_mapDelete_self (items : List (κ × CacheItem κ ν)) (key : κ) :
    mapGet (mapDelete items key) key = none := by
  rw [mapGet_eq_none_iff]
  intro e he
  simpa [mapDelete] using (List.mem_filter.mp he).2

theorem mapGet_mapDelete_ne (items : List (κ × CacheItem κ ν)) {key other : κ}
    (h : other ≠ key) : mapGet (mapDelete items key) other = mapGet items other := by
  induction items with
  | nil => simp [mapDelete, mapGet]
  | cons e rest ih =>
    obtain ⟨k, it⟩ := e
    rw [mapDelete_cons]
    by_cases hk : k = key
    · subst hk
      have hne : ¬ k = other := fun h' => h h'.symm
      simp [mapGet, hne, ih]
    · by_cases ho : k = other
      · subst ho
        simp [hk, mapGet]
      · simp [hk, mapGet, ho, ih]

theorem mapGet_append (xs ys : List (κ × CacheItem κ ν)) (key : κ) :
    mapGet (xs ++ ys) key = (mapGet xs key).orElse (fun _ => mapGet ys key) := by
  induction xs with
  | nil => simp [mapGet]
  | cons e rest ih =>
    by_cases hk : e.1 = key
    · simp [mapGet, hk]
    · simp [mapGet, hk, ih]

theorem mapGet_mapSet_self (items : List (κ × CacheItem κ ν)) (key : κ) (item : CacheItem κ ν) :
    mapGet (mapSet items key item) key = some item := by
  simp [mapSet, mapGet_append, mapGet_mapDelete_self, mapGet]

theorem mapGet_mapSet_ne (items : List (κ × CacheItem κ ν)) {key other : κ}
    (item : CacheItem κ ν) (h : other ≠ key) :
    mapGet (mapSet items key item) other = mapGet items other := by
  have hne : ¬ key = other := fun h' => h h'.symm
  rw [mapSet, mapGet_append, mapGet_mapDelete_ne items h]
  cases mapGet items other <;> simp [mapGet, hne]

theorem mapGet_mapModify (items : List (κ × CacheItem κ ν)) (key other : κ)
    (f : CacheItem κ ν → CacheItem κ ν) :
    mapGet (mapModify items key f) other =
      if other = key then (mapGet items other).map f else mapGet items other := by
  induction items with
  | nil => simp [mapModify, mapGet]
  | cons e rest ih =>
    obtain ⟨k, it⟩ := e
    rw [mapModify_cons]
    by_cases hk : k = key
    · subst hk
      by_cases ho : k = other
      · subst ho
        simp [mapGet]
      · have ho' : ¬ other = k := fun h' => ho h'.symm
        simp [mapGet, ho, ho', ih]
    · by_cases ho : k = other
      · subst ho
        simp [mapGet, hk]
      · simp [mapGet, hk, ho, ih]

end MapFacts

/-! ## Facts about the sweep -/

section SweepFacts

variable {κ ν : Type} [DecidableEq κ]

theorem deleteInternal_table (t : CacheTable κ ν) (key : κ) :
    (t.deleteInternal key).table = { t with items := mapDelete t.items key } := by
  unfold CacheTable.deleteInternal
  cases h : mapGet t.items key with
  | none => simp [mapDelete_of_absent h]
  | some item => simp

theorem expirationStep_table (now : Time) (s : SweepState κ ν) (e : κ × CacheItem κ ν) :
    (expirationStep now s e).table =
      { s.table with
        items := if expiredAt now e.2 = true then mapDelete s.table.items e.1 else s.table.items } := by
  unfold expirationStep expiredAt
  by_cases h0 : e.2.lifespan = 0
  · simp [h0]
  · by_cases h1 : now - e.2.accessedOn ≥ e.2.lifespan
    · simp [h0, h1, deleteInternal_table]
    · by_cases h2 : s.smallestDuration = 0 ∨
          e.2.lifespan - (now - e.2.accessedOn) < s.smallestDuration
      · simp [h0, h1, h2]
      · simp [h0, h1, h2]

/-- The entries the loop leaves: those whose key no visited expired entry carries. -/
theorem sweep_fold_table (now : Time) (xs : List (κ × CacheItem κ ν)) (s : SweepState κ ν) :
    (xs.foldl (expirationStep now) s).table =
      { s.table with
        items := s.table.items.filter (fun e =>
          xs.all (fun x => !(expiredAt now x.2 && decide (x.1 = e.1)))) } := by
  induction xs generalizing s with
  | nil => simp
  | cons x rest ih =>
    rw [List.foldl_cons, ih, expirationStep_table]
    by_cases hx : expiredAt now x.2 = true
    · simp only [hx, if_true, mapDelete, List.filter_filter, List.all_cons, Bool.true_and]
      congr 1
      apply List.filter_congr
      intro e _
      by_cases hk : x.1 = e.1
      · simp [hk]
      · have hk' : ¬ e.1 = x.1 := fun h => hk h.symm
        simp [hk, hk']
    · simp [hx]

theorem expirationCheck_items (t : CacheTable κ ν) (now : Time) :
    (t.expirationCheck now).table.items =
      t.items.filter (fun e => t.items.all (fun x => !(expiredAt now x.2 && decide (x.1 = e.1)))) := by
  unfold CacheTable.expirationCheck
  simp only [sweep_fold_table]
  split <;> rfl

theorem unique_entry {items : List (κ × CacheItem κ ν)} (hu : UniqueKeys items)
    {x e : κ × CacheItem κ ν} (hx : x ∈ items) (he : e ∈ items) (h : x.1 = e.1) : x = e := by
  have h1 := mapGet_of_mem hu hx
  have h2 := mapGet_of_mem hu he
  rw [h, h2] at h1
  exact Prod.ext h (Option.some.inj h1).symm

/-- On a map that holds each key once the sweep keeps exactly the entries that fail its
expiry test, in their order. -/
theorem expirationCheck_items_unique (t : CacheTable κ ν) (now : Time)
    (hu : UniqueKeys t.items) :
    (t.expirationCheck now).table.items = t.items.filter (fun e => !expiredAt now e.2) := by
  rw [expirationCheck_items]
  apply List.filter_congr
  intro e he
  by_cases hexp : expiredAt now e.2 = true
  · simp only [hexp, Bool.not_true, List.all_eq_false]
    exact ⟨e, he, by simp [hexp]⟩
  · have hexp' : expiredAt now e.2 = false := by simpa using hexp
    simp only [hexp', Bool.not_false, List.all_eq_true]
    intro x hx
    by_cases hk : x.1 = e.1
    · have := unique_entry hu hx he hk
      subst this
      simp [hexp']
    · simp [hk]

theorem expirationCheck_frame (t : CacheTable κ ν) (now : Time) :
    (t.expirationCheck now).table.name = t.name ∧
    (t.expirationCheck now).table.loadValue = t.loadValue ∧
    (t.expirationCheck now).table.addedItem = t.addedItem ∧
    (t.expirationCheck now).table.aboutToDeleteItem = t.aboutToDeleteItem := by
  unfold CacheTable.expirationCheck
  simp only [sweep_fold_table]
  split <;> simp

theorem mapGet_filter_of_kept {items : List (κ × CacheItem κ ν)} {key : κ}
    (p : κ × CacheItem κ ν → Bool) (h : ∀ e ∈ items, e.1 = key → p e = true) :
    mapGet (items.filter p) key = mapGet items key := by
  induction items with
  | nil => rfl
  | cons x rest ih =>
    have ih' := ih (fun e he => h e (List.mem_cons_of_mem _ he))
    by_cases hk : x.1 = key
    · have hp : p x = true := h x (List.mem_cons_self _ _) hk
      simp [List.filter_cons, hp, mapGet, hk]
    · by_cases hp : p x = true
      · simp [List.filter_cons, hp, mapGet, hk, ih']
      · simp [List.filter_cons, hp, mapGet, hk, ih']

/-- A sweep removes a key all of whose entries meet the expiry test. -/
theorem expirationCheck_removes (t : CacheTable κ ν) (now : Time) (key : κ)
    (h : ∀ e ∈ t.items, e.1 = key → expiredAt now e.2 = true) :
    mapGet (t.expirationCheck now).table.items key = none := by
  rw [mapGet_eq_none_iff, expirationCheck_items]
  intro e he hk
  obtain ⟨hmem, hall⟩ := List.mem_filter.mp he
  have := List.all_eq_true.mp hall e hmem
  simp [h e hmem hk] at this

/-- A sweep leaves alone a key none of whose entries meets the expiry test. -/
theorem expirationCheck_keeps (t : CacheTable κ ν) (now : Time) (key : κ)
    (h : ∀ e ∈ t.items, e.1 = key → expiredAt now e.2 = false) :
    mapGet (t.expirationCheck now).table.items key = mapGet t.items key := by
  rw [expirationCheck_items]
  apply mapGet_filter_of_kept
  intro e he hk
  rw [List.all_eq_true]
  intro x hx
  by_cases hxe : x.1 = e.1
  · simp [h x hx (hxe.trans hk)]
  · simp [hxe]

theorem expirationCheck_subset (t : CacheTable κ ν) (now : Time) :
    ∀ e ∈ (t.expirationCheck now).table.items, e ∈ t.items := by
  intro e he
  rw [expirationCheck_items] at he
  exact (List.mem_filter.mp he).1

theorem mem_mapSet {items : List (κ × CacheItem κ ν)} {key : κ} {item : CacheItem κ ν}
    {e : κ × CacheItem κ ν} (he : e ∈ mapSet items key item) :
    (e ∈ items ∧ e.1 ≠ key) ∨ e = (key, item) := by
  unfold mapSet mapDelete at he
  rcases List.mem_append.mp he with h | h
  · left
    simpa using List.mem_filter.mp h
  · right
    simpa using h

/-- The map after `addInternal`: the new entry is stored, and the sweep, when one is
run, works on the map that already holds it. -/
theorem addInternal_items (t : CacheTable κ ν) (item : CacheItem κ ν) (sweepNow : Time) :
    (t.addInternal item sweepNow).table.items =
      if item.lifespan > 0 ∧ (t.cleanupInterval = 0 ∨ item.lifespan < t.cleanupInterval) then
        (({ t with items := mapSet t.items item.key item } : CacheTable κ ν).expirationCheck
          sweepNow).table.items
      else mapSet t.items item.key item := by
  unfold CacheTable.addInternal
  simp only []
  split <;> rfl

theorem addInternal_subset (t : CacheTable κ ν) (item : CacheItem κ ν) (sweepNow : Time) :
    ∀ e ∈ (t.addInternal item sweepNow).table.items, e ∈ mapSet t.items item.key item := by
  intro e he
  rw [addInternal_items] at he
  split at he
  · exact expirationCheck_subset _ _ e he
  · exact he

theorem addInternal_frame (t : CacheTable κ ν) (item : CacheItem κ ν) (sweepNow : Time) :
    (t.addInternal item sweepNow).table.name = t.name ∧
    (t.addInternal item sweepNow).table.loadValue = t.loadValue ∧
    (t.addInternal item sweepNow).table.addedItem = t.addedItem ∧
    (t.addInternal item sweepNow).table.aboutToDeleteItem = t.aboutToDeleteItem := by
  unfold CacheTable.addInternal
  simp only []
  split
  · exact expirationCheck_frame _ _
  · simp

end SweepFacts

/-! ## The sweep removes exactly the expired entries -/

section Sweep

variable {κ ν : Type} [DecidableEq κ]

/-- C1. After `expirationCheck` at `now` a key is in the map exactly when it was in the
map before with an entry of lifespan 0 or with `now - accessedOn < lifespan`, and a
surviving key maps to the very entry it mapped to before (value, lifespan, accessedOn
and accessCount included). -/
theorem expirationCheck_removes_exactly_expired (t : CacheTable κ ν) (now : Time)
    (hu : UniqueKeys t.items) :
    (∀ key, (t.expirationCheck now).table.Exists key = true ↔
      ∃ item, mapGet t.items key = some item ∧
        (item.lifespan = 0 ∨ now - item.accessedOn < item.lifespan)) ∧
    (∀ key item, mapGet (t.expirationCheck now).table.items key = some item →
      mapGet t.items key = some item) := by
  have hitems := expirationCheck_items_unique t now hu
  have hget : ∀ key, mapGet (t.expirationCheck now).table.items key =
      (mapGet t.items key).filter (fun item => !expiredAt now item) := by
    intro key
    rw [hitems, mapGet_filter hu]
  constructor
  · intro key
    unfold CacheTable.Exists
    rw [hget]
    cases hg : mapGet t.items key with
    | none => simp
    | some item =>
      by_cases h0 : item.lifespan = 0
      · simp [Option.filter, expiredAt, h0]
      · by_cases h1 : now - item.accessedOn < item.lifespan
        · simp [Option.filter, expiredAt, h0, h1]
        · simp [Option.filter, expiredAt, h0, h1, not_lt.mp h1]
  · intro key item h
    rw [hget] at h
    cases hg : mapGet t.items key with
    | none => simp [hg] at h
    | some found =>
      rw [hg] at h
      by_cases hf : expiredAt now found = true
      · simp [Option.filter, hf] at h
      · simp [Option.filter, hf] at h
        rw [h]

/-- C1, scenario: of two entries inserted at time 0 with lifespans 500ms and 50ms, a
sweep at 100ms leaves the 500ms entry and only it. -/
theorem expirationCheck_removes_exactly_expired_witness :
    UniqueKeys twoLifespans.items ∧
    twoLifespans.Exists "long" = true ∧ twoLifespans.Exists "short" = true ∧
    (twoLifespans.expirationCheck (100 * ms)).table.Exists "long" = true ∧
    (twoLifespans.expirationCheck (100 * ms)).table.Exists "short" = false ∧
    (twoLifespans.expirationCheck (100 * ms)).table.Count = 1 := by
  have hu : UniqueKeys twoLifespans.items := by decide
  have h := expirationCheck_removes_exactly_expired twoLifespans (100 * ms) hu
  refine ⟨hu, by decide, by decide, ?_, ?_, by decide⟩
  · exact (h.1 "long").2 ⟨NewCacheItem "long" "a" (500 * ms) 0 0, by decide, by decide⟩
  · cases hex : (twoLifespans.expirationCheck (100 * ms)).table.Exists "short" with
    | false => rfl
    | true =>
      obtain ⟨item, hget, halive⟩ := (h.1 "short").1 hex
      have hstored : mapGet twoLifespans.items "short" =
          some (NewCacheItem "short" "b" (50 * ms) 0 0) := by decide
      have hitem : item = NewCacheItem "short" "b" (50 * ms) 0 0 :=
        Option.some.inj (hget.symm.trans hstored)
      subst hitem
      revert halive
      decide

/-- C2. An entry inserted with lifespan `L > 0` at time `clock.accessed` and not looked
up since is gone after a sweep at any `now` with `now - clock.accessed > L`: `Exists`
is false and `Value`, on a table without a loader, fails with the not-found error. -/
theorem expired_entry_is_not_found (t : CacheTable κ ν) (key : κ) (value : ν) (L : Duration)
    (clock : AddClock) (now : Time) (args : List ν) (lookupNow : Time) (lookupClock : AddClock)
    (hL : 0 < L) (hload : t.loadValue = none) (hlate : now - clock.accessed > L) :
    ((t.Add key L value clock).table.expirationCheck now).table.Exists key = false ∧
    (((t.Add key L value clock).table.expirationCheck now).table.Value key args lookupNow
      lookupClock).result = .error "item is not found" := by
  have hgone : mapGet ((t.Add key L value clock).table.expirationCheck now).table.items key
      = none := by
    apply expirationCheck_removes
    intro e he hk
    have hmem := addInternal_subset t (NewCacheItem key value L clock.created clock.accessed)
      clock.sweep e he
    rcases mem_mapSet hmem with ⟨_, hne⟩ | rfl
    · exact absurd hk hne
    · have h1 : L ≠ 0 := ne_of_gt hL
      have h2 : L ≤ now - clock.accessed := le_of_lt hlate
      simp [expiredAt, NewCacheItem, h1, h2]
  have hnoload : ((t.Add key L value clock).table.expirationCheck now).table.loadValue
      = none := by
    rw [(expirationCheck_frame _ _).2.1]
    exact ((addInternal_frame t _ _).2.1).trans hload
  constructor
  · simp [CacheTable.Exists, hgone]
  · simp [CacheTable.Value, hgone, hnoload]

/-- C2, scenario: `Add("k1", 100ms, "v1")` at time 0, then a sweep at 150ms; the key
exists right after the insert and the lookup after the sweep fails. -/
theorem expired_entry_is_not_found_witness :
    ((newTable "t" : CacheTable String String).Add "k1" (100 * ms) "v1" ⟨0, 0, 0⟩).table.Exists
      "k1" = true ∧
    ((((newTable "t" : CacheTable String String).Add "k1" (100 * ms) "v1"
      ⟨0, 0, 0⟩).table.expirationCheck (150 * ms)).table.Exists "k1" = false ∧
    ((((newTable "t" : CacheTable String String).Add "k1" (100 * ms) "v1"
      ⟨0, 0, 0⟩).table.expirationCheck (150 * ms)).table.Value "k1" [] (150 * ms)
        ⟨150 * ms, 150 * ms, 150 * ms⟩).result = .error "item is not found") :=
  ⟨by decide,
    expired_entry_is_not_found (newTable "t") "k1" "v1" (100 * ms) ⟨0, 0, 0⟩ (150 * ms) []
      (150 * ms) ⟨150 * ms, 150 * ms, 150 * ms⟩ (by decide) rfl (by decide)⟩

end Sweep

/-! ## Entries that stay -/

section Staying

variable {κ ν : Type} [DecidableEq κ]

theorem storedWith_found {items : List (κ × CacheItem κ ν)} {key : κ}
    {P : CacheItem κ ν → Prop} (h : StoredWith items key P) :
    ∃ found, mapGet items key = some found ∧ P found := by
  obtain ⟨⟨found, hf⟩, hall⟩ := h
  exact ⟨found, hf, hall _ (mapGet_mem hf) rfl⟩

theorem storedWith_of_unique {items : List (κ × CacheItem κ ν)} {key : κ}
    {item : CacheItem κ ν} (hu : UniqueKeys items) (hget : mapGet items key = some item)
    {P : CacheItem κ ν → Prop} (hP : P item) : StoredWith items key P := by
  refine ⟨⟨item, hget⟩, ?_⟩
  intro e he hk
  have := mapGet_of_mem hu he
  rw [hk, hget] at this
  rw [← Option.some.inj this]
  exact hP

theorem storedWith_expirationCheck {t : CacheTable κ ν} {key : κ} {P : CacheItem κ ν → Prop}
    (now : Time) (h : StoredWith t.items key P)
    (halive : ∀ item, P item → expiredAt now item = false) :
    StoredWith (t.expirationCheck now).table.items key P := by
  constructor
  · rw [expirationCheck_keeps t now key (fun e he hk => halive _ (h.2 e he hk))]
    exact h.1
  · intro e he hk
    exact h.2 e (expirationCheck_subset t now e he) hk

theorem storedWith_timerFires {t : CacheTable κ ν} {key : κ} {P : CacheItem κ ν → Prop}
    (now : Time) (h : StoredWith t.items key P)
    (halive : ∀ item, P item → expiredAt now item = false) :
    StoredWith (t.timerFires now).table.items key P := by
  unfold CacheTable.timerFires
  split
  · split
    · exact storedWith_expirationCheck now (t := { t with cleanupTimer := _ }) h halive
    · exact h
  · exact h

theorem storedWith_value_hit {t : CacheTable κ ν} {key : κ} {P Q : CacheItem κ ν → Prop}
    (args : List ν) (now : Time) (clock : AddClock) (h : StoredWith t.items key P)
    (hPQ : ∀ item, P item → Q (item.KeepAlive now)) :
    StoredWith (t.Value key args now clock).table.items key Q := by
  obtain ⟨found, hf⟩ := h.1
  have htab : (t.Value key args now clock).table.items =
      mapModify t.items key (fun it => it.KeepAlive now) := by
    simp [CacheTable.Value, hf]
  rw [htab]
  constructor
  · exact ⟨found.KeepAlive now, by simp [mapGet_mapModify, hf]⟩
  · intro e he hk
    unfold mapModify at he
    obtain ⟨x, hx, rfl⟩ := List.mem_map.mp he
    by_cases hxk : x.1 = key
    · simp only [hxk, if_true]
      exact hPQ _ (h.2 x hx hxk)
    · simp only [hxk, if_false] at hk

omit [DecidableEq κ] in
theorem keptAlive_initial (key : κ) (L : Duration) :
    ∀ (pre suf : List (Op κ ν)) (last : Time),
      keptAlive key L last (pre ++ suf) → keptAlive key L last pre := by
  intro pre
  induction pre with
  | nil => intro _ _ _; simp [keptAlive]
  | cons op rest ih =>
    intro suf last h
    cases op with
    | value k args now clock =>
      simp only [List.cons_append, keptAlive] at h ⊢
      exact ⟨h.1, ih suf now h.2⟩
    | expirationCheck now =>
      simp only [List.cons_append, keptAlive] at h ⊢
      exact ⟨h.1, ih suf last h.2⟩
    | timerFires now =>
      simp only [List.cons_append, keptAlive] at h ⊢
      exact ⟨h.1, ih suf last h.2⟩
    | add _ _ _ _ => simp [keptAlive] at h
    | notFoundAdd _ _ _ _ => simp [keptAlive] at h
    | delete _ => simp [keptAlive] at h
    | flush => simp [keptAlive] at h

theorem keptAlive_run (key : κ) (L : Duration) (P : CacheItem κ ν → Prop)
    (hP : ∀ item now, P item → P (item.KeepAlive now)) :
    ∀ (ops : List (Op κ ν)) (t : CacheTable κ ν) (last : Time),
      StoredWith t.items key (fun it => it.lifespan = L ∧ it.accessedOn = last ∧ P it) →
      keptAlive key L last ops →
      ∃ last', StoredWith (run t ops).items key
        (fun it => it.lifespan = L ∧ it.accessedOn = last' ∧ P it) := by
  intro ops
  induction ops with
  | nil => intro t last h _; exact ⟨last, h⟩
  | cons op rest ih =>
    intro t last h hk
    have halive : ∀ now, now - last < L → ∀ item : CacheItem κ ν,
        (item.lifespan = L ∧ item.accessedOn = last ∧ P item) → expiredAt now item = false := by
      intro now hnow item hi
      have : ¬ L ≤ now - last := not_le.mpr hnow
      simp [expiredAt, hi.1, hi.2.1, this]
    cases op with
    | value k args now clock =>
      simp only [keptAlive] at hk
      obtain ⟨rfl, hrest⟩ := hk
      refine ih _ now ?_ hrest
      exact storedWith_value_hit args now clock h
        (fun item hi => ⟨hi.1, rfl, hP item now hi.2.2⟩)
    | expirationCheck now =>
      simp only [keptAlive] at hk
      exact ih _ last (storedWith_expirationCheck now h (halive now hk.1)) hk.2
    | timerFires now =>
      simp only [keptAlive] at hk
      exact ih _ last (storedWith_timerFires now h (halive now hk.1)) hk.2
    | add _ _ _ _ => simp [keptAlive] at hk
    | notFoundAdd _ _ _ _ => simp [keptAlive] at hk
    | delete _ => simp [keptAlive] at hk
    | flush => simp [keptAlive] at hk

/-- C3. Sliding expiration: take an entry with lifespan `L` (any `L`, so every `L > 0`)
and any sequence of `Value(key)` calls and sweeps in which every sweep runs less than
`L` after the latest access of the key (its `accessedOn` at the start, or the latest
`Value(key)` since).  After every prefix of the sequence the key is still in the map,
with the same value, lifespan and creation time; nothing is assumed about the time
since creation. -/
theorem sliding_expiration (t : CacheTable κ ν) (key : κ) (item : CacheItem κ ν)
    (ops : List (Op κ ν)) (hu : UniqueKeys t.items) (hget : mapGet t.items key = some item)
    (hops : keptAlive key item.lifespan item.accessedOn ops) :
    ∀ pre suf, ops = pre ++ suf →
      ∃ found, mapGet (run t pre).items key = some found ∧
        found.lifespan = item.lifespan ∧ found.value = item.value ∧
        found.createdOn = item.createdOn := by
  intro pre suf hsplit
  subst hsplit
  have hstart : StoredWith t.items key (fun it => it.lifespan = item.lifespan ∧
      it.accessedOn = item.accessedOn ∧
      (it.value = item.value ∧ it.createdOn = item.createdOn)) :=
    storedWith_of_unique hu hget ⟨rfl, rfl, rfl, rfl⟩
  obtain ⟨last', hend⟩ := keptAlive_run key item.lifespan
    (fun it => it.value = item.value ∧ it.createdOn = item.createdOn)
    (fun _ _ h => h) pre t item.accessedOn hstart
    (keptAlive_initial key item.lifespan pre suf item.accessedOn hops)
  obtain ⟨found, hf, hp⟩ := storedWith_found hend
  exact ⟨found, hf, hp.1, hp.2.2.1, hp.2.2.2⟩

/-- C3, scenario: an entry of lifespan 100ms created at time 0 and looked up every 90ms
is still there after the sweep at 350ms. -/
theorem sliding_expiration_witness :
    UniqueKeys oneShortLived.items ∧
    keptAlive "k" (100 * ms) 0 refreshing ∧
    (run oneShortLived refreshing).Exists "k" = true := by
  have hu : UniqueKeys oneShortLived.items := by decide
  have hops : keptAlive "k" (100 * ms) 0 refreshing := by
    simp only [refreshing, keptAlive]
    decide
  refine ⟨hu, hops, ?_⟩
  obtain ⟨found, hf, _⟩ := sliding_expiration oneShortLived "k"
    (NewCacheItem "k" "v" (100 * ms) 0 0) refreshing hu (by decide) hops refreshing []
    (List.append_nil _).symm
  simp [CacheTable.Exists, hf]

theorem storedWith_mapSet_other {items : List (κ × CacheItem κ ν)} {key other : κ}
    {P : CacheItem κ ν → Prop} (item : CacheItem κ ν) (hne : other ≠ key)
    (h : StoredWith items key P) : StoredWith (mapSet items other item) key P := by
  constructor
  · rw [mapGet_mapSet_ne items item (Ne.symm hne)]
    exact h.1
  · intro e he hk
    rcases mem_mapSet he with ⟨hmem, _⟩ | rfl
    · exact h.2 e hmem hk
    · exact absurd hk hne

theorem storedWith_addInternal_other {t : CacheTable κ ν} {key : κ}
    {P : CacheItem κ ν → Prop} (item : CacheItem κ ν) (sweepNow : Time)
    (hne : item.key ≠ key) (h : StoredWith t.items key P)
    (halive : ∀ it, P it → expiredAt sweepNow it = false) :
    StoredWith (t.addInternal item sweepNow).table.items key P := by
  rw [addInternal_items]
  have hset := storedWith_mapSet_other item hne h
  split
  · exact storedWith_expirationCheck sweepNow
      (t := { t with items := mapSet t.items item.key item }) hset halive
  · exact hset

theorem storedWith_add_other {t : CacheTable κ ν} {key other : κ} {P : CacheItem κ ν → Prop}
    (L : Duration) (value : ν) (clock : AddClock) (hne : other ≠ key)
    (h : StoredWith t.items key P) (halive : ∀ it, P it → expiredAt clock.sweep it = false) :
    StoredWith (t.Add other L value clock).table.items key P :=
  storedWith_addInternal_other (NewCacheItem other value L clock.created clock.accessed)
    clock.sweep hne h halive

theorem storedWith_notFoundAdd_other {t : CacheTable κ ν} {key other : κ}
    {P : CacheItem κ ν → Prop} (L : Duration) (value : ν) (clock : AddClock)
    (hne : other ≠ key) (h : StoredWith t.items key P)
    (halive : ∀ it, P it → expiredAt clock.sweep it = false) :
    StoredWith (t.NotFoundAdd other L value clock).table.items key P := by
  unfold CacheTable.NotFoundAdd
  split
  · exact h
  · exact storedWith_addInternal_other
      (NewCacheItem other value L clock.created clock.accessed) clock.sweep hne h halive

theorem storedWith_delete_other {t : CacheTable κ ν} {key other : κ}
    {P : CacheItem κ ν → Prop} (hne : other ≠ key) (h : StoredWith t.items key P) :
    StoredWith (t.Delete other).table.items key P := by
  unfold CacheTable.Delete
  rw [deleteInternal_table]
  constructor
  · show ∃ found, mapGet (mapDelete t.items other) key = some found
    rw [mapGet_mapDelete_ne t.items (Ne.symm hne)]
    exact h.1
  · intro e he hk
    exact h.2 e (List.mem_filter.mp he).1 hk

theorem storedWith_value {t : CacheTable κ ν} {key : κ} {P : CacheItem κ ν → Prop}
    (looked : κ) (args : List ν) (now : Time) (clock : AddClock)
    (h : StoredWith t.items key P) (hkeep : ∀ it, P it → P (it.KeepAlive now))
    (halive : ∀ it, P it → expiredAt clock.sweep it = false) :
    StoredWith (t.Value looked args now clock).table.items key P := by
  by_cases hsame : looked = key
  · subst hsame
    exact storedWith_value_hit args now clock h hkeep
  · unfold CacheTable.Value
    split
    · constructor
      · show ∃ found, mapGet (mapModify t.items looked (fun it => it.KeepAlive now)) key
          = some found
        rw [mapGet_mapModify, if_neg (Ne.symm hsame)]
        exact h.1
      · intro e he hk
        obtain ⟨x, hx, rfl⟩ := List.mem_map.mp he
        by_cases hxk : x.1 = looked
        · simp only [hxk, if_true] at hk
          exact absurd hk hsame
        · simp only [hxk, if_false] at hk ⊢
          exact h.2 x hx hk
    · split
      · split
        · exact storedWith_add_other _ _ clock hsame h halive
        · exact h
      · exact h

/-- An entry of lifespan 0 stays under every call that spares its key. -/
theorem spared_run (key : κ) (value : ν) :
    ∀ (ops : List (Op κ ν)) (t : CacheTable κ ν),
      StoredWith t.items key (fun it => it.lifespan = 0 ∧ it.value = value) →
      (∀ op ∈ ops, op.spares key) →
      StoredWith (run t ops).items key (fun it => it.lifespan = 0 ∧ it.value = value) := by
  intro ops
  induction ops with
  | nil => intro t h _; exact h
  | cons op rest ih =>
    intro t h hops
    have hop : op.spares key := hops op (List.mem_cons_self _ _)
    have hrest : ∀ o ∈ rest, o.spares key := fun o ho => hops o (List.mem_cons_of_mem _ ho)
    have halive : ∀ now, ∀ it : CacheItem κ ν,
        (it.lifespan = 0 ∧ it.value = value) → expiredAt now it = false := by
      intro now it hi
      simp [expiredAt, hi.1]
    have hkeep : ∀ now, ∀ it : CacheItem κ ν, (it.lifespan = 0 ∧ it.value = value) →
        ((it.KeepAlive now).lifespan = 0 ∧ (it.KeepAlive now).value = value) :=
      fun _ _ hi => hi
    refine ih _ ?_ hrest
    cases op with
    | add k L v clock => exact storedWith_add_other L v clock hop h (halive _)
    | notFoundAdd k L v clock => exact storedWith_notFoundAdd_other L v clock hop h (halive _)
    | value k args now clock => exact storedWith_value k args now clock h (hkeep now) (halive _)
    | delete k => exact storedWith_delete_other hop h
    | flush => exact absurd hop (by simp [Op.spares])
    | expirationCheck now => exact storedWith_expirationCheck now h (halive now)
    | timerFires now => exact storedWith_timerFires now h (halive now)

/-- C4. An entry inserted with lifespan 0 is immortal: after `Add(key, 0, value)` and
any sequence of sweeps at arbitrary times, timer firings, lookups of any key, and
inserts and deletes of other keys (no `Delete(key)`, no `Flush`, no insert under
`key`), the key is in the map with that value and lifespan 0. -/
theorem zero_lifespan_is_immortal (t : CacheTable κ ν) (key : κ) (value : ν)
    (clock : AddClock) (ops : List (Op κ ν)) (hops : ∀ op ∈ ops, op.spares key) :
    (run (t.Add key 0 value clock).table ops).Exists key = true ∧
    ∃ found, mapGet (run (t.Add key 0 value clock).table ops).items key = some found ∧
      found.value = value ∧ found.lifespan = 0 := by
  have hstart : StoredWith (t.Add key 0 value clock).table.items key
      (fun it => it.lifespan = 0 ∧ it.value = value) := by
    have hitems : (t.Add key 0 value clock).table.items =
        mapSet t.items key (NewCacheItem key value 0 clock.created clock.accessed) := by
      show (t.addInternal _ _).table.items = _
      rw [addInternal_items]
      simp [NewCacheItem]
    rw [hitems]
    constructor
    · exact ⟨_, mapGet_mapSet_self _ _ _⟩
    · intro e he hk
      rcases mem_mapSet he with ⟨_, hne⟩ | rfl
      · exact absurd hk hne
      · exact ⟨rfl, rfl⟩
  obtain ⟨found, hf, hp⟩ := storedWith_found (spared_run key value ops _ hstart hops)
  exact ⟨by simp [CacheTable.Exists, hf], found, hf, hp.2, hp.1⟩

/-- C4, scenario: "k" inserted with lifespan 0 outlives sweeps up to time 1000s, a
short-lived neighbour, and an insert and a delete of another key. -/
theorem zero_lifespan_is_immortal_witness :
    (∀ op ∈ busy, op.spares "k") ∧
    (run ((newTable "t").Add "k" 0 "v" ⟨0, 0, 0⟩).table busy).Exists "k" = true :=
  ⟨by simp [busy, Op.spares],
    (zero_lifespan_is_immortal (newTable "t") "k" "v" ⟨0, 0, 0⟩ busy
      (by simp [busy, Op.spares])).1⟩

end Staying

/-! ## Removal -/

section Removal

variable {κ ν : Type} [DecidableEq κ]

/-- C5. `Delete(key)` returns an error exactly when the key is absent; the error is the
not-found error, and then the table (map, cleanupInterval, timer, loader, callback
lists) is unchanged and no call is made.  When the key is present `Delete` returns the
entry stored under it, the key is absent afterwards, and every other key maps to what
it mapped to before. -/
theorem delete_fails_iff_absent (t : CacheTable κ ν) (key : κ) :
    ((∃ err, (t.Delete key).result = .error err) ↔ mapGet t.items key = none) ∧
    (mapGet t.items key = none →
      (t.Delete key).result = .error "Key is not found" ∧ (t.Delete key).table = t ∧
        (t.Delete key).trace = []) ∧
    (∀ item, mapGet t.items key = some item →
      (t.Delete key).result = .ok item ∧ (t.Delete key).table.Exists key = false ∧
        ∀ other, other ≠ key →
          mapGet (t.Delete key).table.items other = mapGet t.items other) := by
  refine ⟨?_, ?_, ?_⟩
  · cases h : mapGet t.items key with
    | none => simp [CacheTable.Delete, CacheTable.deleteInternal, h]
    | some item => simp [CacheTable.Delete, CacheTable.deleteInternal, h]
  · intro h
    simp [CacheTable.Delete, CacheTable.deleteInternal, h]
  · intro item h
    refine ⟨by simp [CacheTable.Delete, CacheTable.deleteInternal, h], ?_, ?_⟩
    · simp [CacheTable.Exists, CacheTable.Delete, deleteInternal_table, mapGet_mapDelete_self]
    · intro other hne
      simp [CacheTable.Delete, deleteInternal_table, mapGet_mapDelete_ne t.items hne]

theorem deleteInternal_trace {t : CacheTable κ ν} {key : κ} {item : CacheItem κ ν}
    (h : mapGet t.items key = some item) :
    (t.deleteInternal key).trace = removalCalls t.aboutToDeleteItem key item t.items := by
  simp [CacheTable.deleteInternal, h, removalCalls]

omit [DecidableEq κ] in
theorem removalCalls_key {cbs : List Callback} {key : κ} {item : CacheItem κ ν}
    {seen : List (κ × CacheItem κ ν)} (hkey : item.key = key) :
    ∀ ev ∈ removalCalls cbs key item seen, ev.removalKey = some key := by
  intro ev hev
  unfold removalCalls at hev
  rcases List.mem_append.mp hev with h | h
  · obtain ⟨cb, _, rfl⟩ := List.mem_map.mp h
    simp [Event.removalKey, hkey]
  · obtain ⟨cb, _, rfl⟩ := List.mem_map.mp h
    simp [Event.removalKey]

theorem keyed_mapDelete {items : List (κ × CacheItem κ ν)} (h : KeyedByItemKey items)
    (key : κ) : KeyedByItemKey (mapDelete items key) :=
  fun e he => h e (List.mem_filter.mp he).1

/-- What one turn of the loop adds to the trace: nothing, or the calls of one removal,
all of them about the key it is looking at. -/
theorem expirationStep_trace (now : Time) (s : SweepState κ ν) (x : κ × CacheItem κ ν)
    (hkeyed : KeyedByItemKey s.table.items) :
    ∃ calls, (expirationStep now s x).trace = s.trace ++ calls ∧
      (∀ ev ∈ calls, ev.removalKey = some x.1) ∧
      KeyedByItemKey (expirationStep now s x).table.items := by
  have htab := expirationStep_table now s x
  have hk : KeyedByItemKey (expirationStep now s x).table.items := by
    rw [htab]
    show KeyedByItemKey (if expiredAt now x.2 = true then _ else _)
    split
    · exact keyed_mapDelete hkeyed _
    · exact hkeyed
  unfold expirationStep at *
  by_cases h0 : x.2.lifespan = 0
  · exact ⟨[], by simp [h0], by simp, by simpa [h0] using hk⟩
  · by_cases h1 : now - x.2.accessedOn ≥ x.2.lifespan
    · refine ⟨(s.table.deleteInternal x.1).trace, by simp [h0, h1], ?_, by simpa [h0, h1] using hk⟩
      cases hg : mapGet s.table.items x.1 with
      | none => simp [CacheTable.deleteInternal, hg]
      | some item =>
        rw [deleteInternal_trace hg]
        exact removalCalls_key (hkeyed _ (mapGet_mem hg))
    · by_cases h2 : s.smallestDuration = 0 ∨
          x.2.lifespan - (now - x.2.accessedOn) < s.smallestDuration
      · exact ⟨[], by simp [h0, h1, h2], by simp, by simpa [h0, h1, h2] using hk⟩
      · exact ⟨[], by simp [h0, h1, h2], by simp, by simpa [h0, h1, h2] using hk⟩

/-- What the loop over `xs` adds to the trace: calls about keys of `xs`. -/
theorem sweep_fold_trace (now : Time) (xs : List (κ × CacheItem κ ν)) :
    ∀ s : SweepState κ ν, KeyedByItemKey s.table.items →
      ∃ calls, (xs.foldl (expirationStep now) s).trace = s.trace ++ calls ∧
        ∀ ev ∈ calls, ∃ x ∈ xs, ev.removalKey = some x.1 := by
  induction xs with
  | nil => intro s _; exact ⟨[], by simp, by simp⟩
  | cons x rest ih =>
    intro s hkeyed
    obtain ⟨c1, h1, hc1, hk1⟩ := expirationStep_trace now s x hkeyed
    obtain ⟨c2, h2, hc2⟩ := ih (expirationStep now s x) hk1
    refine ⟨c1 ++ c2, by rw [List.foldl_cons, h2, h1, List.append_assoc], ?_⟩
    intro ev hev
    rcases List.mem_append.mp hev with h | h
    · exact ⟨x, List.mem_cons_self _ _, hc1 ev h⟩
    · obtain ⟨y, hy, hyk⟩ := hc2 ev h
      exact ⟨y, List.mem_cons_of_mem _ hy, hyk⟩

/-- The calls of a sweep: the calls of its loop, then the call of `time.AfterFunc` when
it arms a timer. -/
theorem expirationCheck_trace (t : CacheTable κ ν) (now : Time) :
    (t.expirationCheck now).trace =
      (t.items.foldl (expirationStep now)
        ⟨{ t with cleanupTimer := t.cleanupTimer.map (fun tm => { tm with active := false }) },
          0, []⟩).trace ++ armCalls (t.expirationCheck now).table.cleanupInterval := by
  unfold CacheTable.expirationCheck armCalls
  simp only []
  split
  · rename_i h
    simp [h]
  · rename_i h
    simp [h]

omit [DecidableEq κ] in
theorem armCalls_isArm (delay : Duration) :
    ∀ ev ∈ (armCalls delay : List (Event κ ν)), ev.isArm = true := by
  intro ev hev
  unfold armCalls at hev
  split at hev
  · rw [List.mem_singleton.mp hev]
    rfl
  · exact absurd hev (List.not_mem_nil ev)

omit [DecidableEq κ] in
theorem unique_split {pre post : List (κ × CacheItem κ ν)} {e : κ × CacheItem κ ν}
    (hu : UniqueKeys (pre ++ e :: post)) :
    UniqueKeys pre ∧ (∀ x ∈ pre, x.1 ≠ e.1) ∧ (∀ x ∈ post, x.1 ≠ e.1) ∧
      (∀ x ∈ pre, ∀ y ∈ post, x.1 ≠ y.1) := by
  unfold UniqueKeys at *
  rw [List.map_append, List.map_cons, List.nodup_append] at hu
  obtain ⟨hpre, hrest, hdisj⟩ := hu
  rw [List.nodup_cons] at hrest
  refine ⟨hpre, ?_, ?_, ?_⟩
  · intro x hx hk
    exact hdisj (List.mem_map_of_mem Prod.fst hx) (hk ▸ List.mem_cons_self _ _)
  · intro x hx hk
    exact hrest.1 (hk ▸ List.mem_map_of_mem Prod.fst hx)
  · intro x hx y hy hk
    exact hdisj (List.mem_map_of_mem Prod.fst hx)
      (List.mem_cons_of_mem _ (hk ▸ List.mem_map_of_mem Prod.fst hy))

/-- The map as the loop finds it when it reaches an entry: the entries before it that
fail the expiry test, the entry itself, and the entries after it. -/
theorem sweep_fold_seen (now : Time) {pre post : List (κ × CacheItem κ ν)}
    {e : κ × CacheItem κ ν} (hu : UniqueKeys (pre ++ e :: post)) :
    (pre ++ e :: post).filter (fun y => pre.all (fun x => !(expiredAt now x.2 && decide (x.1 = y.1))))
      = pre.filter (fun y => !expiredAt now y.2) ++ e :: post := by
  obtain ⟨hpre, hpe, _, hpp⟩ := unique_split hu
  rw [List.filter_append]
  congr 1
  · apply List.filter_congr
    intro y hy
    by_cases hexp : expiredAt now y.2 = true
    · simp only [hexp, Bool.not_true, List.all_eq_false]
      exact ⟨y, hy, by simp [hexp]⟩
    · have hexp' : expiredAt now y.2 = false := by simpa using hexp
      simp only [hexp', Bool.not_false, List.all_eq_true]
      intro x hx
      by_cases hk : x.1 = y.1
      · have := unique_entry hpre hx hy hk
        subst this
        simp [hexp']
      · simp [hk]
  · rw [List.filter_eq_self]
    intro y hy
    rw [List.all_eq_true]
    intro x hx
    have hne : x.1 ≠ y.1 := by
      rcases List.mem_cons.mp hy with rfl | hy'
      · exact hpe x hx
      · exact hpp x hx y hy'
    simp [hne]

/-- The calls of the loop around the removal of one expired entry. -/
theorem sweep_fold_trace_split (now : Time) (s0 : SweepState κ ν) (key : κ)
    (item : CacheItem κ ν) (pre post : List (κ × CacheItem κ ν))
    (hu : UniqueKeys s0.table.items) (hk0 : KeyedByItemKey s0.table.items)
    (hsplit : s0.table.items = pre ++ (key, item) :: post) (hexp : expiredAt now item = true) :
    ∃ before after,
      ((pre ++ (key, item) :: post).foldl (expirationStep now) s0).trace =
        s0.trace ++ before ++ removalCalls s0.table.aboutToDeleteItem key item
          (pre.filter (fun e => !expiredAt now e.2) ++ (key, item) :: post) ++ after ∧
      (∀ ev ∈ before ++ after, ev.removalKey ≠ some key) := by
  have hu' : UniqueKeys (pre ++ (key, item) :: post) := hsplit ▸ hu
  obtain ⟨_, hpe, hpo, _⟩ := unique_split hu'
  rw [List.foldl_append, List.foldl_cons]
  obtain ⟨before, hb, hbk⟩ := sweep_fold_trace now pre s0 hk0
  have htab1 := sweep_fold_table now pre s0
  generalize pre.foldl (expirationStep now) s0 = s1 at hb htab1
  have hitems1 : s1.table.items =
      pre.filter (fun e => !expiredAt now e.2) ++ (key, item) :: post := by
    rw [htab1]
    show List.filter _ s0.table.items = _
    rw [hsplit]
    exact sweep_fold_seen now hu'
  have hcbs1 : s1.table.aboutToDeleteItem = s0.table.aboutToDeleteItem := by
    rw [htab1]
  have hk1 : KeyedByItemKey s1.table.items := by
    rw [hitems1]
    intro e he
    apply hk0
    rw [hsplit]
    rcases List.mem_append.mp he with h | h
    · exact List.mem_append_left _ (List.mem_filter.mp h).1
    · exact List.mem_append_right _ h
  have hget1 : mapGet s1.table.items key = some item := by
    rw [hitems1, mapGet_append]
    have : mapGet (pre.filter (fun e => !expiredAt now e.2)) key = none := by
      rw [mapGet_eq_none_iff]
      intro e he
      exact hpe e (List.mem_filter.mp he).1
    simp [this, mapGet]
  obtain ⟨hl, hge⟩ : item.lifespan ≠ 0 ∧ item.lifespan ≤ now - item.accessedOn := by
    simpa [expiredAt] using hexp
  have hstep : (expirationStep now s1 (key, item)).trace =
      s1.trace ++ removalCalls s0.table.aboutToDeleteItem key item s1.table.items := by
    simp [expirationStep, hl, hge, deleteInternal_trace hget1, hcbs1]
  obtain ⟨_, _, _, hk2⟩ := expirationStep_trace now s1 (key, item) hk1
  obtain ⟨after, ha, hak⟩ := sweep_fold_trace now post (expirationStep now s1 (key, item)) hk2
  refine ⟨before, after, ?_, ?_⟩
  · rw [ha, hstep, hb, hitems1]
  · intro ev hev
    rcases List.mem_append.mp hev with h | h
    · obtain ⟨x, hx, hxk⟩ := hbk ev h
      rw [hxk]
      exact fun hc => hpe x hx (Option.some.inj hc)
    · obtain ⟨x, hx, hxk⟩ := hak ev h
      rw [hxk]
      exact fun hc => hpo x hx (Option.some.inj hc)

/-- The calls of a sweep around the removal of one expired entry. -/
theorem expirationCheck_trace_split (t : CacheTable κ ν) (now : Time) (key : κ)
    (item : CacheItem κ ν) (pre post : List (κ × CacheItem κ ν))
    (hu : UniqueKeys t.items) (hkeyed : KeyedByItemKey t.items)
    (hsplit : t.items = pre ++ (key, item) :: post) (hexp : expiredAt now item = true) :
    ∃ before after,
      (t.expirationCheck now).trace =
        before ++ removalCalls t.aboutToDeleteItem key item
          (pre.filter (fun e => !expiredAt now e.2) ++ (key, item) :: post) ++ after ∧
      (∀ ev ∈ before ++ after, ev.removalKey ≠ some key) := by
  obtain ⟨before, after, h, hother⟩ := sweep_fold_trace_split now
    ⟨{ t with cleanupTimer := t.cleanupTimer.map (fun tm => { tm with active := false }) },
      0, []⟩ key item pre post hu hkeyed hsplit hexp
  have hfold : ∀ (s : SweepState κ ν) (l : List (κ × CacheItem κ ν)), t.items = l →
      (t.items.foldl (expirationStep now) s).trace = (l.foldl (expirationStep now) s).trace := by
    intro s l hl
    rw [hl]
  rw [expirationCheck_trace, hfold _ _ hsplit]
  refine ⟨before, after ++ armCalls (t.expirationCheck now).table.cleanupInterval,
    by rw [h]; simp, ?_⟩
  intro ev hev
  rw [← List.append_assoc] at hev
  rcases List.mem_append.mp hev with hm | hm
  · exact hother ev hm
  · have := armCalls_isArm _ ev hm
    cases ev <;> simp [Event.isArm, Event.removalKey] at this ⊢

/-- C6. The calls of a removal.  `Delete(key)` of a present key makes exactly these
calls, in this order: every function of the table's `aboutToDeleteItem` list, once, with
the entry, then every function of the entry's `aboutToExpire` list, once, with the key;
each call sees the map as it was before the `Delete`, the key in it.  A sweep that
reaches an expired entry makes the same calls for it, as one block of its trace, each
seeing a map that still holds the key (the earlier entries that survived, the entry,
and the entries not yet visited), and no other call of the sweep is about that key. -/
theorem removal_callbacks_fire_once_in_order (t : CacheTable κ ν) (key : κ)
    (item : CacheItem κ ν) (hget : mapGet t.items key = some item) :
    ((t.Delete key).trace = removalCalls t.aboutToDeleteItem key item t.items ∧
      t.Exists key = true) ∧
    (∀ now pre post, UniqueKeys t.items → KeyedByItemKey t.items →
      t.items = pre ++ (key, item) :: post →
      item.lifespan ≠ 0 → now - item.accessedOn ≥ item.lifespan →
      ∃ before after seen,
        (t.expirationCheck now).trace =
          before ++ removalCalls t.aboutToDeleteItem key item seen ++ after ∧
        seen = pre.filter (fun e => !expiredAt now e.2) ++ (key, item) :: post ∧
        mapGet seen key = some item ∧
        (∀ ev ∈ before ++ after, ev.removalKey ≠ some key)) := by
  constructor
  · exact ⟨deleteInternal_trace hget, by simp [CacheTable.Exists, hget]⟩
  · intro now pre post hu hkeyed hsplit hl hge
    have hexp : expiredAt now item = true := by simp [expiredAt, hl, hge]
    obtain ⟨before, after, htr, hother⟩ :=
      expirationCheck_trace_split t now key item pre post hu hkeyed hsplit hexp
    refine ⟨before, after, _, htr, rfl, ?_, hother⟩
    obtain ⟨_, hpe, _, _⟩ := unique_split (hsplit ▸ hu)
    rw [mapGet_append]
    have : mapGet (pre.filter (fun e => !expiredAt now e.2)) key = none := by
      rw [mapGet_eq_none_iff]
      intro e he
      exact hpe e (List.mem_filter.mp he).1
    simp [this, mapGet]

/-- C6, scenario: on a table with pre-delete callbacks 1, 2 whose entry "k" has
pre-remove callbacks 7, 8, `Delete("k")` calls 1, 2, 7, 8, each seeing all three keys;
the sweep at 50ms removes "i" and then "k", and calls 1, 2, 7, 8 for "k" seeing the map
without "i" but still with "k". -/
theorem removal_callbacks_fire_once_in_order_witness :
    (watched.Delete "k").trace =
      [.aboutToDeleteItem 1 watchedK watched.items, .aboutToDeleteItem 2 watchedK watched.items,
       .aboutToExpire 7 "k" watched.items, .aboutToExpire 8 "k" watched.items] ∧
    (watched.expirationCheck (50 * ms)).trace =
      [.aboutToDeleteItem 1 watchedI watched.items, .aboutToDeleteItem 2 watchedI watched.items] ++
        removalCalls [1, 2] "k" watchedK [("j", watchedJ), ("k", watchedK)] ∧
    (watched.expirationCheck (50 * ms)).table.items = [("j", watchedJ)] ∧
    ∃ before after seen,
      (watched.expirationCheck (50 * ms)).trace =
        before ++ removalCalls watched.aboutToDeleteItem "k" watchedK seen ++ after ∧
      seen = [("i", watchedI), ("j", watchedJ)].filter (fun e => !expiredAt (50 * ms) e.2) ++
        [("k", watchedK)] ∧
      mapGet seen "k" = some watchedK ∧
      (∀ ev ∈ before ++ after, ev.removalKey ≠ some "k") := by
  have h := removal_callbacks_fire_once_in_order watched "k" watchedK (by decide)
  refine ⟨h.1.1.trans (by decide), by decide, by decide, ?_⟩
  exact h.2 (50 * ms) [("i", watchedI), ("j", watchedJ)] [] (by decide) (by decide) rfl
    (by decide) (by decide)

end Removal

/-! ## Insertion and lookup -/

section Insertion

variable {κ ν : Type} [DecidableEq κ]

theorem storedWith_mapSet_self (items : List (κ × CacheItem κ ν)) (key : κ)
    (item : CacheItem κ ν) : StoredWith (mapSet items key item) key (fun it => it = item) := by
  constructor
  · exact ⟨item, mapGet_mapSet_self _ _ _⟩
  · intro e he hk
    rcases mem_mapSet he with ⟨_, hne⟩ | rfl
    · exact absurd hk hne
    · rfl

/-- The new entry is in the map after `Add` when its lifespan is not positive or the
sweep of the insert runs less than the lifespan after the entry was created. -/
theorem add_stores (t : CacheTable κ ν) (key : κ) (L : Duration) (value : ν) (clock : AddClock)
    (h : L ≤ 0 ∨ clock.sweep - clock.accessed < L) :
    mapGet (t.Add key L value clock).table.items key =
      some (NewCacheItem key value L clock.created clock.accessed) := by
  show mapGet (t.addInternal _ _).table.items key = _
  rw [addInternal_items]
  have hset := storedWith_mapSet_self t.items key
    (NewCacheItem key value L clock.created clock.accessed)
  split
  · rename_i hcond
    have hpos : 0 < L := hcond.1
    have hlt : clock.sweep - clock.accessed < L := by
      rcases h with h | h
      · exact absurd hpos (not_lt.mpr h)
      · exact h
    have halive : ∀ it : CacheItem κ ν,
        it = NewCacheItem key value L clock.created clock.accessed →
          expiredAt clock.sweep it = false := by
      intro it hit
      have : ¬ L ≤ clock.sweep - clock.accessed := not_le.mpr hlt
      simp [hit, expiredAt, NewCacheItem, this]
    obtain ⟨found, hf, hfound⟩ := storedWith_found (storedWith_expirationCheck clock.sweep
      (t := { t with items := mapSet t.items key _ }) hset halive)
    exact hf.trans (congrArg some hfound)
  · exact mapGet_mapSet_self _ _ _

/-- The new entry is removed by the sweep of its own insert when that sweep runs and
finds the lifespan already elapsed. -/
theorem add_expires_at_once (t : CacheTable κ ν) (key : κ) (L : Duration) (value : ν)
    (clock : AddClock) (hL : 0 < L) (hsweep : t.cleanupInterval = 0 ∨ L < t.cleanupInterval)
    (hlate : L ≤ clock.sweep - clock.accessed) :
    mapGet (t.Add key L value clock).table.items key = none := by
  show mapGet (t.addInternal _ _).table.items key = _
  rw [addInternal_items]
  have hcond : (NewCacheItem key value L clock.created clock.accessed).lifespan > 0 ∧
      (t.cleanupInterval = 0 ∨
        (NewCacheItem key value L clock.created clock.accessed).lifespan < t.cleanupInterval) :=
    ⟨hL, hsweep⟩
  rw [if_pos hcond]
  apply expirationCheck_removes
  intro e he hk
  have := (storedWith_mapSet_self t.items key
    (NewCacheItem key value L clock.created clock.accessed)).2 e he hk
  have hne : L ≠ 0 := ne_of_gt hL
  simp [this, expiredAt, NewCacheItem, hne, hlate]

/-- C7, as stated, fails: with lifespan 1ms and the sweep of the insert reading the clock
1ms after the entry was created, the entry is removed at once, and a second
`NotFoundAdd` of the same key right after the successful first one returns true too. -/
theorem notFoundAdd_twice_counterexample :
    ((newTable "t" : CacheTable String String).NotFoundAdd "k" (1 * ms) "v"
      ⟨0, 0, 1 * ms⟩).result = true ∧
    (((newTable "t" : CacheTable String String).NotFoundAdd "k" (1 * ms) "v"
      ⟨0, 0, 1 * ms⟩).table.NotFoundAdd "k" (1 * ms) "v" ⟨1 * ms, 1 * ms, 1 * ms⟩).result
        = true := by
  decide

/-- C7, amended. `NotFoundAdd` is insert-if-absent: on a present key it returns false,
leaves the table as it is and makes no call; on an absent key it returns true and
leaves the table and the calls of `Add`.  A second `NotFoundAdd` of the same key right
after a successful one returns false exactly when the entry survived its own insert:
it returns true when, and only when, the first insert ran a sweep (lifespan positive,
and cleanupInterval 0 or larger than the lifespan) that read the clock a lifespan or
more after the entry was created. -/
theorem notFoundAdd_is_insert_if_absent (t : CacheTable κ ν) (key : κ) (L : Duration)
    (value : ν) (clock : AddClock) :
    (∀ item, mapGet t.items key = some item →
      (t.NotFoundAdd key L value clock).result = false ∧
        (t.NotFoundAdd key L value clock).table = t ∧
        (t.NotFoundAdd key L value clock).trace = []) ∧
    (mapGet t.items key = none →
      (t.NotFoundAdd key L value clock).result = true ∧
        (t.NotFoundAdd key L value clock).table = (t.Add key L value clock).table ∧
        (t.NotFoundAdd key L value clock).trace = (t.Add key L value clock).trace) ∧
    (mapGet t.items key = none → ∀ (L' : Duration) (value' : ν) (clock' : AddClock),
      (((t.NotFoundAdd key L value clock).table.NotFoundAdd key L' value' clock').result = true ↔
        (0 < L ∧ (t.cleanupInterval = 0 ∨ L < t.cleanupInterval) ∧
          L ≤ clock.sweep - clock.accessed))) := by
  refine ⟨?_, ?_, ?_⟩
  · intro item h
    simp [CacheTable.NotFoundAdd, h]
  · intro h
    simp [CacheTable.NotFoundAdd, h, CacheTable.Add]
  · intro h L' value' clock'
    have htab : (t.NotFoundAdd key L value clock).table = (t.Add key L value clock).table := by
      simp [CacheTable.NotFoundAdd, h, CacheTable.Add]
    rw [htab]
    by_cases hgone : 0 < L ∧ (t.cleanupInterval = 0 ∨ L < t.cleanupInterval) ∧
        L ≤ clock.sweep - clock.accessed
    · have := add_expires_at_once t key L value clock hgone.1 hgone.2.1 hgone.2.2
      simp [CacheTable.NotFoundAdd, this, hgone]
    · have hstays : mapGet (t.Add key L value clock).table.items key =
          some (NewCacheItem key value L clock.created clock.accessed) := by
        by_cases hok : L ≤ 0 ∨ clock.sweep - clock.accessed < L
        · exact add_stores t key L value clock hok
        · have hpos : 0 < L := by
            by_contra hc
            exact hok (Or.inl (not_lt.mp hc))
          have hlate : L ≤ clock.sweep - clock.accessed := by
            by_contra hc
            exact hok (Or.inr (not_le.mp hc))
          have hnosweep : ¬ (t.cleanupInterval = 0 ∨ L < t.cleanupInterval) :=
            fun hs => hgone ⟨hpos, hs, hlate⟩
          show mapGet (t.addInternal _ _).table.items key = _
          rw [addInternal_items]
          have hcond : ¬ ((NewCacheItem key value L clock.created clock.accessed).lifespan > 0 ∧
              (t.cleanupInterval = 0 ∨
                (NewCacheItem key value L clock.created clock.accessed).lifespan
                  < t.cleanupInterval)) := fun hc => hnosweep hc.2
          rw [if_neg hcond]
          exact mapGet_mapSet_self _ _ _
      simp [CacheTable.NotFoundAdd, hstays, hgone]

/-- C8. `Value(key)` returns an error exactly when the key is absent and either no
loader is configured, and the error is the not-found error, or the loader returns nil
for the key, and the error is the loader-failed error, a different one.  In both cases
the table (map, cleanupInterval, callback lists) is unchanged and no on-insert callback
is called: the only call made is the call of the loader, if there is one. -/
theorem value_fails_iff (t : CacheTable κ ν) (key : κ) (args : List ν) (now : Time)
    (clock : AddClock) :
    ((∃ err, (t.Value key args now clock).result = .error err) ↔
      (mapGet t.items key = none ∧
        (t.loadValue = none ∨ ∃ f, t.loadValue = some f ∧ f key args = none))) ∧
    (mapGet t.items key = none → t.loadValue = none →
      (t.Value key args now clock).result = .error "item is not found" ∧
        (t.Value key args now clock).table = t ∧ (t.Value key args now clock).trace = []) ∧
    (∀ f, mapGet t.items key = none → t.loadValue = some f → f key args = none →
      (t.Value key args now clock).result = .error "loadValue is null" ∧
        (t.Value key args now clock).table = t ∧
        (t.Value key args now clock).trace = [Event.loadValue key args]) ∧
    ("loadValue is null" ≠ "item is not found") := by
  refine ⟨?_, ?_, ?_, by decide⟩
  · cases hg : mapGet t.items key with
    | some item => simp [CacheTable.Value, hg]
    | none =>
      cases hl : t.loadValue with
      | none => simp [CacheTable.Value, hg, hl]
      | some f =>
        cases hf : f key args with
        | none => simp [CacheTable.Value, hg, hl, hf]
        | some item => simp [CacheTable.Value, hg, hl, hf]
  · intro hg hl
    simp [CacheTable.Value, hg, hl]
  · intro f hg hl hf
    simp [CacheTable.Value, hg, hl, hf]

theorem add_zero_lifespan (t : CacheTable κ ν) (key : κ) (value : ν) (clock : AddClock) :
    (t.Add key 0 value clock).table =
      { t with items := mapSet t.items key (NewCacheItem key value 0 clock.created clock.accessed) } ∧
    (t.Add key 0 value clock).trace = t.addedItem.map (fun callback =>
      Event.addedItem callback (NewCacheItem key value 0 clock.created clock.accessed)
        (mapSet t.items key (NewCacheItem key value 0 clock.created clock.accessed))) := by
  simp [CacheTable.Add, CacheTable.addInternal, NewCacheItem]

/-- C9. On a table whose loader returns `NewCacheItem(k, f(k), 0)`, `Value` of an absent
key succeeds with an entry of value `f(key)`, the key is then in the map with value
`f(key)`, and a `Value` of the same key right after succeeds with the same value and does
not call the loader: over the two lookups the loader is called exactly once. -/
theorem loader_populates_once (t : CacheTable κ ν) (key : κ) (args args' : List ν)
    (now now' : Time) (clock clock' : AddClock) (f : κ → ν)
    (loader : κ → List ν → Option (CacheItem κ ν))
    (habsent : mapGet t.items key = none) (hloader : t.loadValue = some loader)
    (hbuilds : ∀ k a, ∃ created accessed, loader k a = some (NewCacheItem k (f k) 0 created accessed)) :
    (∃ e, (t.Value key args now clock).result = .ok e ∧ e.value = f key) ∧
    (∃ stored, mapGet (t.Value key args now clock).table.items key = some stored ∧
      stored.value = f key) ∧
    (∃ e, ((t.Value key args now clock).table.Value key args' now' clock').result = .ok e ∧
      e.value = f key) ∧
    ((t.Value key args now clock).table.Value key args' now' clock').trace = [] ∧
    (((t.Value key args now clock).trace ++
      ((t.Value key args now clock).table.Value key args' now' clock').trace).filter
        Event.isLoad).length = 1 := by
  obtain ⟨created, accessed, hl⟩ := hbuilds key args
  have hadd := add_zero_lifespan t key (f key) clock
  have hfirst : t.Value key args now clock =
      ⟨(t.Add key 0 (f key) clock).table, .ok (NewCacheItem key (f key) 0 created accessed),
        Event.loadValue key args :: (t.Add key 0 (f key) clock).trace⟩ := by
    simp [CacheTable.Value, habsent, hloader, hl, NewCacheItem]
  have hstored : mapGet (t.Value key args now clock).table.items key =
      some (NewCacheItem key (f key) 0 clock.created clock.accessed) := by
    rw [hfirst]
    exact add_stores t key 0 (f key) clock (Or.inl (le_refl 0))
  have hsecond : ((t.Value key args now clock).table.Value key args' now' clock').result =
        .ok ((NewCacheItem key (f key) 0 clock.created clock.accessed).KeepAlive now') ∧
      ((t.Value key args now clock).table.Value key args' now' clock').trace = [] := by
    generalize (t.Value key args now clock).table = t1 at hstored
    simp [CacheTable.Value, hstored]
  refine ⟨⟨_, by rw [hfirst], rfl⟩, ⟨_, hstored, rfl⟩, ⟨_, hsecond.1, rfl⟩, hsecond.2, ?_⟩
  rw [hsecond.2, hfirst, hadd.2]
  simp [List.filter_cons, Event.isLoad, List.filter_map, List.filter_eq_nil_iff]

/-- C9, scenario: with the loader `NewCacheItem(k, "loaded:"+k, 0)`, the first
`Value("missing")` returns the value "loaded:missing" and calls the loader, the second
returns the same value and makes no call. -/
theorem loader_populates_once_witness :
    (∃ e, (((newTable "t").SetValueLoader prefixLoader).Value "missing" [] 10
        ⟨10, 10, 10⟩).result = .ok e ∧ e.value = "loaded:missing") ∧
    (∃ e, ((((newTable "t").SetValueLoader prefixLoader).Value "missing" [] 10
        ⟨10, 10, 10⟩).table.Value "missing" [] 20 ⟨20, 20, 20⟩).result = .ok e ∧
      e.value = "loaded:missing") ∧
    (((newTable "t").SetValueLoader prefixLoader).Value "missing" [] 10 ⟨10, 10, 10⟩).trace
      = [Event.loadValue "missing" []] ∧
    ((((newTable "t").SetValueLoader prefixLoader).Value "missing" [] 10
      ⟨10, 10, 10⟩).table.Value "missing" [] 20 ⟨20, 20, 20⟩).trace = [] := by
  have h := loader_populates_once ((newTable "t").SetValueLoader prefixLoader) "missing" [] []
    10 20 ⟨10, 10, 10⟩ ⟨20, 20, 20⟩ (fun k => "loaded:" ++ k) prefixLoader rfl rfl
    (fun k _ => ⟨5, 5, rfl⟩)
  exact ⟨h.1, h.2.2.1, by decide, h.2.2.2.1⟩

/-- C10, as stated, fails.  (a) A loader answers a lookup of "asked" with an entry whose
key is "other": `Value` returns that entry, and the table holds nothing under "other";
what it holds, under "asked", is another entry.  (b) A loader answers under the key
asked for, with a pre-remove callback set on its entry: the entry returned is not the
entry stored, which has no callback.  (c) A loader answers with lifespan 1ms and the
sweep of the insert reads the clock 1ms after the entry was created: the table holds
no entry at all afterwards. -/
theorem loaded_entry_counterexample :
    (((newTable "t").SetValueLoader otherKeyLoader).Value "asked" [] 10 ⟨10, 10, 10⟩).result
      = .ok (NewCacheItem "other" "v" 0 5 5) ∧
    (((newTable "t").SetValueLoader otherKeyLoader).Value "asked" [] 10
      ⟨10, 10, 10⟩).table.Exists "other" = false ∧
    (((newTable "t").SetValueLoader otherKeyLoader).Value "asked" [] 10
      ⟨10, 10, 10⟩).table.items = [("asked", NewCacheItem "asked" "v" 0 10 10)] ∧
    (((newTable "t").SetValueLoader callbackLoader).Value "asked" [] 10 ⟨10, 10, 10⟩).result
      = .ok ((NewCacheItem "asked" "v" 0 5 5).SetAboutToExpireCallback 7) ∧
    mapGet (((newTable "t").SetValueLoader callbackLoader).Value "asked" [] 10
      ⟨10, 10, 10⟩).table.items "asked" = some (NewCacheItem "asked" "v" 0 10 10) ∧
    (NewCacheItem "asked" "v" 0 5 5).SetAboutToExpireCallback 7
      ≠ (NewCacheItem "asked" "v" 0 10 10 : CacheItem String String) ∧
    (((newTable "t").SetValueLoader shortLoader).Value "asked" [] 10
      ⟨10, 10, 10 + 1 * ms⟩).table.items = [] := by
  refine ⟨rfl, by decide, by decide, rfl, by decide, by decide, by decide⟩

/-- C10, amended. When `Value(key)` misses and the loader returns an entry `e`, `Value`
returns `e` itself and does `Add(key, e.lifespan, e.value)` under the key looked up,
whatever key `e` carries: its calls are the call of the loader followed by the calls of
that `Add`, and the table is the table that `Add` leaves.  When `e.lifespan` is not
positive, or the sweep of the insert runs less than `e.lifespan` after the new entry
was created, the map then holds under `key` the entry `NewCacheItem` built from the key
looked up, the value and the lifespan of `e`. -/
theorem loaded_entry_is_stored_under_lookup_key (t : CacheTable κ ν) (key : κ)
    (args : List ν) (now : Time) (clock : AddClock)
    (loader : κ → List ν → Option (CacheItem κ ν)) (e : CacheItem κ ν)
    (habsent : mapGet t.items key = none) (hloader : t.loadValue = some loader)
    (hloaded : loader key args = some e) :
    (t.Value key args now clock).result = .ok e ∧
    (t.Value key args now clock).table = (t.Add key e.lifespan e.value clock).table ∧
    (t.Value key args now clock).trace =
      Event.loadValue key args :: (t.Add key e.lifespan e.value clock).trace ∧
    (e.lifespan ≤ 0 ∨ clock.sweep - clock.accessed < e.lifespan →
      mapGet (t.Value key args now clock).table.items key =
        some (NewCacheItem key e.value e.lifespan clock.created clock.accessed)) := by
  have hval : t.Value key args now clock =
      ⟨(t.Add key e.lifespan e.value clock).table, .ok e,
        Event.loadValue key args :: (t.Add key e.lifespan e.value clock).trace⟩ := by
    simp [CacheTable.Value, habsent, hloader, hloaded]
  refine ⟨by rw [hval], by rw [hval], by rw [hval], ?_⟩
  intro h
  rw [hval]
  exact add_stores t key e.lifespan e.value clock h

/-- C10, amended, scenario: the loader answers "asked" with an entry keyed "other"; the
entry is returned as it is and a new entry is stored under "asked". -/
theorem loaded_entry_is_stored_under_lookup_key_witness :
    (((newTable "t").SetValueLoader otherKeyLoader).Value "asked" [] 10 ⟨10, 10, 10⟩).result
      = .ok (NewCacheItem "other" "v" 0 5 5) ∧
    mapGet (((newTable "t").SetValueLoader otherKeyLoader).Value "asked" [] 10
      ⟨10, 10, 10⟩).table.items "asked" = some (NewCacheItem "asked" "v" 0 10 10) := by
  have h := loaded_entry_is_stored_under_lookup_key
    ((newTable "t").SetValueLoader otherKeyLoader) "asked" [] 10 ⟨10, 10, 10⟩ otherKeyLoader
    (NewCacheItem "other" "v" 0 5 5) rfl rfl rfl
  exact ⟨h.1, h.2.2.2 (Or.inl (by decide))⟩

end Insertion

/-! ## Lookup hits -/

section LookupHit

variable {κ ν : Type} [DecidableEq κ]

theorem mapModify_keys (items : List (κ × CacheItem κ ν)) (key : κ)
    (f : CacheItem κ ν → CacheItem κ ν) :
    (mapModify items key f).map Prod.fst = items.map Prod.fst := by
  induction items with
  | nil => rfl
  | cons e rest ih =>
    rw [mapModify_cons, List.map_cons, List.map_cons, ih]
    by_cases h : e.1 = key <;> simp [h]

/-- C11. On a table that holds `key`, `Value(key)` at `now` succeeds and returns the entry
stored under `key`, refreshed: `accessedOn` is `now` and `accessCount` is one more, while
key, value, lifespan, `createdOn` and the entry's callbacks are as before.  The map
holds the same keys in the same order, every other key maps to what it mapped to
before, `cleanupInterval`, the timer, the loader and the callback lists are unchanged,
and no call is made (the loader is not called). -/
theorem value_hit_refreshes_only (t : CacheTable κ ν) (key : κ) (item : CacheItem κ ν)
    (args : List ν) (now : Time) (clock : AddClock) (hget : mapGet t.items key = some item) :
    (t.Value key args now clock).result = .ok (item.KeepAlive now) ∧
    mapGet (t.Value key args now clock).table.items key = some (item.KeepAlive now) ∧
    ((item.KeepAlive now).accessedOn = now ∧
      (item.KeepAlive now).accessCount = item.accessCount + 1 ∧
      (item.KeepAlive now).key = item.key ∧ (item.KeepAlive now).value = item.value ∧
      (item.KeepAlive now).lifespan = item.lifespan ∧
      (item.KeepAlive now).createdOn = item.createdOn ∧
      (item.KeepAlive now).aboutToExpire = item.aboutToExpire) ∧
    (t.Value key args now clock).table.items.map Prod.fst = t.items.map Prod.fst ∧
    (∀ other, other ≠ key →
      mapGet (t.Value key args now clock).table.items other = mapGet t.items other) ∧
    ((t.Value key args now clock).table.cleanupInterval = t.cleanupInterval ∧
      (t.Value key args now clock).table.cleanupTimer = t.cleanupTimer ∧
      (t.Value key args now clock).table.loadValue = t.loadValue ∧
      (t.Value key args now clock).table.addedItem = t.addedItem ∧
      (t.Value key args now clock).table.aboutToDeleteItem = t.aboutToDeleteItem) ∧
    (t.Value key args now clock).trace = [] := by
  have hval : t.Value key args now clock =
      ⟨{ t with items := mapModify t.items key (fun it => it.KeepAlive now) },
        .ok (item.KeepAlive now), []⟩ := by
    simp [CacheTable.Value, hget]
  rw [hval]
  refine ⟨rfl, ?_, ⟨rfl, rfl, rfl, rfl, rfl, rfl, rfl⟩, ?_, ?_,
    ⟨rfl, rfl, rfl, rfl, rfl⟩, rfl⟩
  · simp [mapGet_mapModify, hget]
  · show (mapModify t.items key (fun it => it.KeepAlive now)).map Prod.fst = _
    exact mapModify_keys t.items key _
  · intro other hne
    simp [mapGet_mapModify, hne]

/-- C11, scenario: `Value("j")` at 70ms on the table holding "i", "j", "k" returns "j" with
`accessedOn` 70ms and `accessCount` 4 (it was 3) and leaves "i" and "k" as they were. -/
theorem value_hit_refreshes_only_witness :
    (watched.Value "j" [] (70 * ms) ⟨0, 0, 0⟩).result =
      .ok { watchedJ with accessedOn := 70 * ms, accessCount := 4 } ∧
    (watched.Value "j" [] (70 * ms) ⟨0, 0, 0⟩).table.items =
      [("i", watchedI), ("j", { watchedJ with accessedOn := 70 * ms, accessCount := 4 }),
        ("k", watchedK)] ∧
    (watched.Value "j" [] (70 * ms) ⟨0, 0, 0⟩).trace = [] := by
  have h := value_hit_refreshes_only watched "j" watchedJ [] (70 * ms) ⟨0, 0, 0⟩ (by decide)
  exact ⟨h.1, by decide, h.2.2.2.2.2.2⟩

/-- C20. `Value` does not test expiry: on a table that holds `key` with lifespan `L` (any
`L`, so every `L > 0`), `Value(key)` at any `now`, however long after the entry's
`accessedOn` (also `L` or more after it, when no sweep has run since), succeeds, returns
the entry and sets its `accessedOn` to `now`; a sweep that then runs less than `L` after
`now` keeps the entry. -/
theorem lookup_revives_expired (t : CacheTable κ ν) (key : κ) (item : CacheItem κ ν)
    (args : List ν) (now : Time) (clock : AddClock) (sweepNow : Time)
    (hu : UniqueKeys t.items) (hget : mapGet t.items key = some item)
    (hsoon : sweepNow - now < item.lifespan) :
    (t.Value key args now clock).result = .ok (item.KeepAlive now) ∧
    (item.KeepAlive now).accessedOn = now ∧
    mapGet (t.Value key args now clock).table.items key = some (item.KeepAlive now) ∧
    mapGet ((t.Value key args now clock).table.expirationCheck sweepNow).table.items key
      = some (item.KeepAlive now) := by
  have hstart : StoredWith t.items key (fun it => it = item) :=
    storedWith_of_unique hu hget rfl
  have hhit : StoredWith (t.Value key args now clock).table.items key
      (fun it => it = item.KeepAlive now) :=
    storedWith_value_hit args now clock hstart (fun it hit => by rw [hit])
  have halive : ∀ it : CacheItem κ ν, it = item.KeepAlive now →
      expiredAt sweepNow it = false := by
    intro it hit
    have : ¬ item.lifespan ≤ sweepNow - now := not_le.mpr hsoon
    simp [hit, expiredAt, CacheItem.KeepAlive, this]
  obtain ⟨found, hf, hfound⟩ := storedWith_found hhit
  obtain ⟨kept, hk, hkept⟩ := storedWith_found (storedWith_expirationCheck sweepNow hhit halive)
  refine ⟨by simp [CacheTable.Value, hget], rfl, hf.trans (congrArg some hfound),
    hk.trans (congrArg some hkept)⟩

/-- C20, scenario: "i" has lifespan 10ms and was last accessed at time 0.  A sweep at 55ms
removes it; after `Value("i")` at 50ms the same sweep keeps it. -/
theorem lookup_revives_expired_witness :
    (watched.expirationCheck (55 * ms)).table.Exists "i" = false ∧
    (watched.Value "i" [] (50 * ms) ⟨0, 0, 0⟩).result = .ok (watchedI.KeepAlive (50 * ms)) ∧
    ((watched.Value "i" [] (50 * ms) ⟨0, 0, 0⟩).table.expirationCheck (55 * ms)).table.Exists
      "i" = true := by
  have h := lookup_revives_expired watched "i" watchedI [] (50 * ms) ⟨0, 0, 0⟩ (55 * ms)
    (by decide) (by decide) (by decide)
  exact ⟨by decide, h.1, by simp [CacheTable.Exists, h.2.2.2]⟩

end LookupHit

/-! ## Flush -/

section Flushing

variable {κ ν : Type}

/-- C13. After `Flush` the map is empty (`Count()` is 0), `cleanupInterval` is 0 and no
timer is pending, so the schedule is idle; `Flush` makes no call, to no on-insert,
pre-delete or pre-remove callback, and leaves the loader and both callback lists of the
table as they were. -/
theorem flush_empties_and_disarms (t : CacheTable κ ν) :
    t.Flush.table.Count = 0 ∧ t.Flush.table.cleanupInterval = 0 ∧
    t.Flush.table.timerPending = false ∧ t.Flush.table.Idle ∧
    t.Flush.trace = [] ∧
    t.Flush.table.loadValue = t.loadValue ∧ t.Flush.table.addedItem = t.addedItem ∧
    t.Flush.table.aboutToDeleteItem = t.aboutToDeleteItem := by
  have hp : t.Flush.table.timerPending = false := by
    unfold CacheTable.Flush CacheTable.timerPending
    cases t.cleanupTimer <;> rfl
  exact ⟨rfl, rfl, hp, ⟨rfl, hp⟩, rfl, rfl, rfl, rfl⟩

end Flushing

/-! ## The callback lists -/

section Callbacks

variable {κ ν : Type} [DecidableEq κ]

theorem deleteInternal_trace_removal (t : CacheTable κ ν) (key : κ) :
    ∀ ev ∈ (t.deleteInternal key).trace, ev.isRemoval = true := by
  intro ev hev
  unfold CacheTable.deleteInternal at hev
  cases h : mapGet t.items key with
  | none => simp [h] at hev
  | some item =>
    simp only [h] at hev
    rcases List.mem_append.mp hev with hm | hm
    · obtain ⟨cb, _, rfl⟩ := List.mem_map.mp hm
      rfl
    · obtain ⟨cb, _, rfl⟩ := List.mem_map.mp hm
      rfl

/-- What one turn of the loop adds to the trace: the calls of `deleteInternal` when the
entry meets the expiry test, nothing otherwise. -/
theorem expirationStep_trace_eq (now : Time) (s : SweepState κ ν) (x : κ × CacheItem κ ν) :
    (expirationStep now s x).trace =
      s.trace ++ (if expiredAt now x.2 = true then (s.table.deleteInternal x.1).trace else []) := by
  unfold expirationStep expiredAt
  by_cases h0 : x.2.lifespan = 0
  · simp [h0]
  · by_cases h1 : now - x.2.accessedOn ≥ x.2.lifespan
    · simp [h0, h1]
    · by_cases h2 : s.smallestDuration = 0 ∨
          x.2.lifespan - (now - x.2.accessedOn) < s.smallestDuration
      · simp [h0, h1, h2]
      · simp [h0, h1, h2]

theorem sweep_fold_trace_removal (now : Time) (xs : List (κ × CacheItem κ ν)) :
    ∀ s : SweepState κ ν, ∃ calls,
      (xs.foldl (expirationStep now) s).trace = s.trace ++ calls ∧
        ∀ ev ∈ calls, ev.isRemoval = true := by
  induction xs with
  | nil => intro s; exact ⟨[], by simp, by simp⟩
  | cons x rest ih =>
    intro s
    obtain ⟨c2, h2, hc2⟩ := ih (expirationStep now s x)
    refine ⟨(if expiredAt now x.2 = true then (s.table.deleteInternal x.1).trace else []) ++ c2,
      by rw [List.foldl_cons, h2, expirationStep_trace_eq, List.append_assoc], ?_⟩
    intro ev hev
    rcases List.mem_append.mp hev with h | h
    · split at h
      · exact deleteInternal_trace_removal _ _ ev h
      · simp at h
    · exact hc2 ev h

/-- A sweep calls pre-delete and pre-remove callbacks, and `time.AfterFunc`, only. -/
theorem expirationCheck_trace_removal (t : CacheTable κ ν) (now : Time) :
    ∀ ev ∈ (t.expirationCheck now).trace, ev.isRemoval = true ∨ ev.isArm = true := by
  rw [expirationCheck_trace]
  obtain ⟨calls, h, hc⟩ := sweep_fold_trace_removal now t.items
    ⟨{ t with cleanupTimer := t.cleanupTimer.map (fun tm => { tm with active := false }) },
      0, []⟩
  rw [h]
  intro ev hev
  rcases List.mem_append.mp hev with hm | hm
  · exact Or.inl (hc ev (by simpa using hm))
  · exact Or.inr (armCalls_isArm _ ev hm)

/-- The calls of `addInternal`: the on-insert callbacks, in list order, each with the new
entry and seeing the map that holds it; then the calls of the sweep, if one is run. -/
theorem addInternal_trace (t : CacheTable κ ν) (item : CacheItem κ ν) (sweepNow : Time) :
    ∃ rest, (t.addInternal item sweepNow).trace =
        t.addedItem.map (fun callback =>
          Event.addedItem callback item (mapSet t.items item.key item)) ++ rest ∧
      ∀ ev ∈ rest, ev.isRemoval = true ∨ ev.isArm = true := by
  unfold CacheTable.addInternal
  simp only []
  split
  · exact ⟨_, rfl, expirationCheck_trace_removal _ _⟩
  · exact ⟨[], by simp, by simp⟩

omit [DecidableEq κ] in
theorem filter_isAdded_calls (cbs : List Callback) (item : CacheItem κ ν)
    (seen : List (κ × CacheItem κ ν)) (rest : List (Event κ ν))
    (hrest : ∀ ev ∈ rest, ev.isRemoval = true ∨ ev.isArm = true) :
    (cbs.map (fun callback => Event.addedItem callback item seen) ++ rest).filter Event.isAdded
      = cbs.map (fun callback => Event.addedItem callback item seen) := by
  rw [List.filter_append]
  have h1 : (cbs.map (fun callback => Event.addedItem callback item seen)).filter Event.isAdded
      = cbs.map (fun callback => Event.addedItem callback item seen) := by
    rw [List.filter_eq_self]
    intro ev hev
    obtain ⟨cb, _, rfl⟩ := List.mem_map.mp hev
    rfl
  have h2 : rest.filter Event.isAdded = [] := by
    rw [List.filter_eq_nil_iff]
    intro ev hev
    have := hrest ev hev
    cases ev <;> simp [Event.isRemoval, Event.isArm, Event.isAdded] at this ⊢
  rw [h1, h2, List.append_nil]

/-- C15. `SetAddedItemCallback(f)` leaves the on-insert list `[f]` whatever it held,
`AddAddedItemCallback(g)` leaves the previous list followed by `g`, and
`RemoveAddedItemCallback` leaves it empty.  The on-insert calls of an `Add`, and of a
`NotFoundAdd` of an absent key, are exactly one call of each function of the current
list, in list order, each with the newly inserted entry (the entry `Add` returns). -/
theorem addedItem_set_replaces_add_appends (t : CacheTable κ ν) (f g : Callback) (key : κ)
    (L : Duration) (value : ν) (clock : AddClock) :
    (t.SetAddedItemCallback f).addedItem = [f] ∧
    (t.AddAddedItemCallback g).addedItem = t.addedItem ++ [g] ∧
    t.RemoveAddedItemCallback.addedItem = [] ∧
    ((t.Add key L value clock).trace.filter Event.isAdded =
        t.addedItem.map (fun callback =>
          Event.addedItem callback (t.Add key L value clock).result
            (mapSet t.items key (t.Add key L value clock).result)) ∧
      (t.Add key L value clock).result =
        NewCacheItem key value L clock.created clock.accessed) ∧
    (mapGet t.items key = none →
      (t.NotFoundAdd key L value clock).result = true ∧
      (t.NotFoundAdd key L value clock).trace.filter Event.isAdded =
        t.addedItem.map (fun callback =>
          Event.addedItem callback (NewCacheItem key value L clock.created clock.accessed)
            (mapSet t.items key (NewCacheItem key value L clock.created clock.accessed)))) := by
  obtain ⟨rest, hrest, hrem⟩ := addInternal_trace t
    (NewCacheItem key value L clock.created clock.accessed) clock.sweep
  have hfilter := filter_isAdded_calls t.addedItem
    (NewCacheItem key value L clock.created clock.accessed)
    (mapSet t.items key (NewCacheItem key value L clock.created clock.accessed)) rest hrem
  refine ⟨?_, rfl, rfl, ⟨?_, rfl⟩, ?_⟩
  · unfold CacheTable.SetAddedItemCallback CacheTable.RemoveAddedItemCallback
    by_cases h : t.addedItem.length > 0
    · simp [h]
    · have : t.addedItem = [] := by
        cases hl : t.addedItem with
        | nil => rfl
        | cons a l => simp [hl] at h
      simp [this]
  · show (t.addInternal _ _).trace.filter Event.isAdded = _
    rw [hrest]
    exact hfilter
  · intro habsent
    have hn : t.NotFoundAdd key L value clock =
        ⟨(t.addInternal (NewCacheItem key value L clock.created clock.accessed)
            clock.sweep).table, true,
          (t.addInternal (NewCacheItem key value L clock.created clock.accessed)
            clock.sweep).trace⟩ := by
      simp [CacheTable.NotFoundAdd, habsent]
    rw [hn]
    refine ⟨rfl, ?_⟩
    show (t.addInternal _ _).trace.filter Event.isAdded = _
    rw [hrest]
    exact hfilter

/-- C15, scenario: after `SetAddedItemCallback(cb1)` and `AddAddedItemCallback(cb2)`,
`Add("someKey", 0, v)` calls cb1 and then cb2, once each, with the new entry. -/
theorem addedItem_set_replaces_add_appends_witness :
    twoCallbacks.addedItem = [1, 2] ∧
    (twoCallbacks.Add "someKey" 0 "v" ⟨0, 0, 0⟩).trace.filter Event.isAdded =
      [.addedItem 1 (NewCacheItem "someKey" "v" 0 0 0)
          [("someKey", NewCacheItem "someKey" "v" 0 0 0)],
        .addedItem 2 (NewCacheItem "someKey" "v" 0 0 0)
          [("someKey", NewCacheItem "someKey" "v" 0 0 0)]] ∧
    (twoCallbacks.Add "someKey" 0 "v" ⟨0, 0, 0⟩).trace =
      (twoCallbacks.Add "someKey" 0 "v" ⟨0, 0, 0⟩).trace.filter Event.isAdded := by
  have h := addedItem_set_replaces_add_appends twoCallbacks 1 2 "someKey" 0 "v" ⟨0, 0, 0⟩
  exact ⟨by decide, h.2.2.2.1.1, by decide⟩

omit [DecidableEq κ] in
/-- What `SetAboutToDeleteItemCallback(f)` does: it appends `f` to the pre-delete list,
and when that list was not empty it empties the on-insert list; the rest of the table
is untouched. -/
theorem setAboutToDeleteItemCallback_effect (t : CacheTable κ ν) (f : Callback) :
    (t.SetAboutToDeleteItemCallback f).aboutToDeleteItem = t.aboutToDeleteItem ++ [f] ∧
    (t.SetAboutToDeleteItemCallback f).addedItem =
      (if t.aboutToDeleteItem.length > 0 then [] else t.addedItem) ∧
    (t.SetAboutToDeleteItemCallback f).items = t.items ∧
    (t.SetAboutToDeleteItemCallback f).cleanupInterval = t.cleanupInterval ∧
    (t.SetAboutToDeleteItemCallback f).cleanupTimer = t.cleanupTimer ∧
    (t.SetAboutToDeleteItemCallback f).loadValue = t.loadValue := by
  unfold CacheTable.SetAboutToDeleteItemCallback CacheTable.RemoveAddedItemCallback
  by_cases h : t.aboutToDeleteItem.length > 0 <;> simp [h]

/-- C14, at the failing input: the table `watched` has the pre-delete callbacks 1 and 2.
After `SetAboutToDeleteItemCallback(3)` the list is 1, 2, 3, not 3 alone, and
`Delete("j")` calls 1, 2 and 3 before the entry's own callback 9. -/
theorem setAboutToDeleteItemCallback_keeps_old_callbacks :
    watched.aboutToDeleteItem = [1, 2] ∧
    (watched.SetAboutToDeleteItemCallback 3).aboutToDeleteItem = [1, 2, 3] ∧
    ((watched.SetAboutToDeleteItemCallback 3).Delete "j").trace =
      [.aboutToDeleteItem 1 watchedJ watched.items, .aboutToDeleteItem 2 watchedJ watched.items,
       .aboutToDeleteItem 3 watchedJ watched.items, .aboutToExpire 9 "j" watched.items] := by
  decide

/-- C19, at the failing input: the table `watched` has the on-insert callback 5 and a
non-empty pre-delete list.  After `SetAboutToDeleteItemCallback(3)` the on-insert list is
empty, and an `Add` that called callback 5 before calls nothing. -/
theorem setAboutToDeleteItemCallback_clears_addedItem :
    watched.addedItem = [5] ∧
    (watched.SetAboutToDeleteItemCallback 3).addedItem = [] ∧
    (watched.Add "n" 0 "v" ⟨0, 0, 0⟩).trace =
      [.addedItem 5 (NewCacheItem "n" "v" 0 0 0)
        (watched.items ++ [("n", NewCacheItem "n" "v" 0 0 0)])] ∧
    ((watched.SetAboutToDeleteItemCallback 3).Add "n" 0 "v" ⟨0, 0, 0⟩).trace = [] := by
  decide

end Callbacks

/-! ## The sweep schedule -/

section Schedule

variable {κ ν : Type} [DecidableEq κ]

/-- What one turn of the loop does to `smallestDuration`. -/
theorem expirationStep_smallest (now : Time) (s : SweepState κ ν) (x : κ × CacheItem κ ν) :
    (expirationStep now s x).smallestDuration =
      if x.2.lifespan ≠ 0 ∧ expiredAt now x.2 = false then
        (if s.smallestDuration = 0 ∨ remaining now x.2 < s.smallestDuration then
          remaining now x.2 else s.smallestDuration)
      else s.smallestDuration := by
  unfold expirationStep expiredAt remaining
  by_cases h0 : x.2.lifespan = 0
  · simp [h0]
  · by_cases h1 : now - x.2.accessedOn ≥ x.2.lifespan
    · simp [h0, h1]
    · by_cases h2 : s.smallestDuration = 0 ∨
          x.2.lifespan - (now - x.2.accessedOn) < s.smallestDuration
      · simp [h0, h1, h2]
      · simp [h0, h1, h2]

omit [DecidableEq κ] in
theorem remaining_pos {now : Time} {item : CacheItem κ ν}
    (h : item.lifespan ≠ 0 ∧ expiredAt now item = false) : 0 < remaining now item := by
  have h2 : ¬ item.lifespan ≤ now - item.accessedOn := by
    simpa [expiredAt, h.1] using h.2
  unfold remaining
  linarith [not_le.mp h2]

/-- The update of `smallestDuration` by a positive time left `r`: the result is positive,
at most `r`, and at most the old value when that was positive (0 stands for none). -/
theorem smallest_pick (m r : Duration) (hm : 0 ≤ m) (hr : 0 < r) :
    0 < (if m = 0 ∨ r < m then r else m) ∧ (if m = 0 ∨ r < m then r else m) ≤ r ∧
      (0 < m → (if m = 0 ∨ r < m then r else m) ≤ m) := by
  by_cases h : m = 0 ∨ r < m
  · rw [if_pos h]
    refine ⟨hr, le_refl _, fun hp => ?_⟩
    rcases h with h | h
    · exact absurd h (ne_of_gt hp)
    · exact le_of_lt h
  · rw [if_neg h]
    have h1 : m ≠ 0 := fun hc => h (Or.inl hc)
    have h2 : m ≤ r := not_lt.mp (fun hc => h (Or.inr hc))
    exact ⟨lt_of_le_of_ne hm (Ne.symm h1), h2, fun _ => le_refl _⟩

/-- The value of `smallestDuration` after the loop over `xs`: never negative, at most the
time left of every entry of `xs` that stays and has a lifespan, and either the value it
started from or the time left of one such entry. -/
theorem sweep_fold_smallest (now : Time) (xs : List (κ × CacheItem κ ν)) :
    ∀ s : SweepState κ ν, 0 ≤ s.smallestDuration →
      0 ≤ (xs.foldl (expirationStep now) s).smallestDuration ∧
      (∀ x ∈ xs, x.2.lifespan ≠ 0 ∧ expiredAt now x.2 = false →
        0 < (xs.foldl (expirationStep now) s).smallestDuration ∧
          (xs.foldl (expirationStep now) s).smallestDuration ≤ remaining now x.2) ∧
      (0 < s.smallestDuration →
        0 < (xs.foldl (expirationStep now) s).smallestDuration ∧
          (xs.foldl (expirationStep now) s).smallestDuration ≤ s.smallestDuration) ∧
      ((xs.foldl (expirationStep now) s).smallestDuration = s.smallestDuration ∨
        ∃ x ∈ xs, (x.2.lifespan ≠ 0 ∧ expiredAt now x.2 = false) ∧
          (xs.foldl (expirationStep now) s).smallestDuration = remaining now x.2) := by
  induction xs with
  | nil =>
    intro s hs
    exact ⟨hs, by simp, fun h => ⟨h, le_refl _⟩, Or.inl rfl⟩
  | cons x rest ih =>
    intro s hs
    have hstep := expirationStep_smallest now s x
    have hlive : x.2.lifespan ≠ 0 ∧ expiredAt now x.2 = false →
        0 < (expirationStep now s x).smallestDuration ∧
          (expirationStep now s x).smallestDuration ≤ remaining now x.2 ∧
          (0 < s.smallestDuration →
            (expirationStep now s x).smallestDuration ≤ s.smallestDuration) := by
      intro hl
      rw [hstep, if_pos hl]
      exact smallest_pick _ _ hs (remaining_pos hl)
    have hdead : ¬ (x.2.lifespan ≠ 0 ∧ expiredAt now x.2 = false) →
        (expirationStep now s x).smallestDuration = s.smallestDuration := by
      intro hl
      rw [hstep, if_neg hl]
    have hs' : 0 ≤ (expirationStep now s x).smallestDuration := by
      by_cases hl : x.2.lifespan ≠ 0 ∧ expiredAt now x.2 = false
      · exact le_of_lt (hlive hl).1
      · rw [hdead hl]
        exact hs
    obtain ⟨hA, hB, hC, hD⟩ := ih (expirationStep now s x) hs'
    rw [List.foldl_cons]
    refine ⟨hA, ?_, ?_, ?_⟩
    · intro y hy hl
      rcases List.mem_cons.mp hy with rfl | hy'
      · have hle := hlive hl
        have := hC hle.1
        exact ⟨this.1, le_trans this.2 hle.2.1⟩
      · exact hB y hy' hl
    · intro hpos
      by_cases hl : x.2.lifespan ≠ 0 ∧ expiredAt now x.2 = false
      · have hle := hlive hl
        have := hC hle.1
        exact ⟨this.1, le_trans this.2 (hle.2.2 hpos)⟩
      · have := hC (by rw [hdead hl]; exact hpos)
        rw [hdead hl] at this
        exact this
    · rcases hD with hD | ⟨y, hy, hl, hm⟩
      · by_cases hl : x.2.lifespan ≠ 0 ∧ expiredAt now x.2 = false
        · rw [hD, hstep, if_pos hl]
          by_cases hp : s.smallestDuration = 0 ∨ remaining now x.2 < s.smallestDuration
          · rw [if_pos hp]
            exact Or.inr ⟨x, List.mem_cons_self _ _, hl, rfl⟩
          · rw [if_neg hp]
            exact Or.inl rfl
        · rw [hD, hdead hl]
          exact Or.inl rfl
      · exact Or.inr ⟨y, List.mem_cons_of_mem _ hy, hl, hm⟩

/-- The schedule a sweep leaves: `cleanupInterval` is the final `smallestDuration`, and
the timer is a new one armed for it when it is positive, the old one stopped when not. -/
theorem expirationCheck_schedule (t : CacheTable κ ν) (now : Time) :
    (t.expirationCheck now).table.cleanupInterval =
      (t.items.foldl (expirationStep now)
        ⟨{ t with cleanupTimer := t.cleanupTimer.map (fun tm => { tm with active := false }) },
          0, []⟩).smallestDuration ∧
    (0 < (t.expirationCheck now).table.cleanupInterval →
      (t.expirationCheck now).table.cleanupTimer =
        some ⟨(t.expirationCheck now).table.cleanupInterval, true⟩) ∧
    (¬ 0 < (t.expirationCheck now).table.cleanupInterval →
      (t.expirationCheck now).table.cleanupTimer =
        t.cleanupTimer.map (fun tm => { tm with active := false })) := by
  unfold CacheTable.expirationCheck
  simp only []
  split
  · rename_i h
    exact ⟨rfl, fun _ => rfl, fun hn => absurd h hn⟩
  · rename_i h
    refine ⟨rfl, fun hp => absurd hp h, fun _ => ?_⟩
    simp [sweep_fold_table]

/-- An entry a sweep leaves in the map was in the map and fails the expiry test. -/
theorem expirationCheck_survivor (t : CacheTable κ ν) (now : Time)
    {e : κ × CacheItem κ ν} (he : e ∈ (t.expirationCheck now).table.items) :
    e ∈ t.items ∧ expiredAt now e.2 = false := by
  rw [expirationCheck_items] at he
  obtain ⟨hmem, hall⟩ := List.mem_filter.mp he
  refine ⟨hmem, ?_⟩
  have := List.all_eq_true.mp hall e hmem
  simpa using this

/-- After a sweep `cleanupInterval` is not negative and is at most the time left of
every entry with a lifespan that the sweep left in the map; it is positive when there
is such an entry. -/
theorem expirationCheck_interval_le (t : CacheTable κ ν) (now : Time) :
    0 ≤ (t.expirationCheck now).table.cleanupInterval ∧
    ∀ e ∈ (t.expirationCheck now).table.items, e.2.lifespan ≠ 0 →
      0 < (t.expirationCheck now).table.cleanupInterval ∧
        (t.expirationCheck now).table.cleanupInterval ≤ remaining now e.2 := by
  obtain ⟨hA, hB, _, _⟩ := sweep_fold_smallest now t.items
    ⟨{ t with cleanupTimer := t.cleanupTimer.map (fun tm => { tm with active := false }) },
      0, []⟩ (le_refl _)
  rw [(expirationCheck_schedule t now).1]
  refine ⟨hA, ?_⟩
  intro e he hl
  obtain ⟨hmem, hexp⟩ := expirationCheck_survivor t now he
  exact hB e hmem ⟨hl, hexp⟩

/-- C16. After `expirationCheck` at `now`, on a map that holds each key once and whose
entries were last accessed no later than `now`: `cleanupInterval` is at most
`lifespan - (now - accessedOn)` of every surviving entry with lifespan > 0, it is that
quantity for one of them when there is one, and it is 0 when there is none; a timer is
pending exactly when `cleanupInterval` is positive, and it is then a timer whose delay
is `cleanupInterval`. -/
theorem sweep_schedule_is_minimum (t : CacheTable κ ν) (now : Time)
    (hu : UniqueKeys t.items) (hclock : ∀ e ∈ t.items, e.2.accessedOn ≤ now) :
    (∀ e ∈ (t.expirationCheck now).table.items, 0 < e.2.lifespan →
      (t.expirationCheck now).table.cleanupInterval ≤ e.2.lifespan - (now - e.2.accessedOn)) ∧
    ((∃ e ∈ (t.expirationCheck now).table.items, 0 < e.2.lifespan) →
      ∃ e ∈ (t.expirationCheck now).table.items, 0 < e.2.lifespan ∧
        (t.expirationCheck now).table.cleanupInterval =
          e.2.lifespan - (now - e.2.accessedOn)) ∧
    ((∀ e ∈ (t.expirationCheck now).table.items, ¬ 0 < e.2.lifespan) →
      (t.expirationCheck now).table.cleanupInterval = 0) ∧
    ((t.expirationCheck now).table.timerPending = true ↔
      0 < (t.expirationCheck now).table.cleanupInterval) ∧
    (0 < (t.expirationCheck now).table.cleanupInterval →
      (t.expirationCheck now).table.cleanupTimer =
        some ⟨(t.expirationCheck now).table.cleanupInterval, true⟩) := by
  obtain ⟨hint, harm, hstop⟩ := expirationCheck_schedule t now
  obtain ⟨hnonneg, hle⟩ := expirationCheck_interval_le t now
  obtain ⟨_, _, _, hD⟩ := sweep_fold_smallest now t.items
    ⟨{ t with cleanupTimer := t.cleanupTimer.map (fun tm => { tm with active := false }) },
      0, []⟩ (le_refl _)
  rw [← hint] at hD
  have hitems := expirationCheck_items_unique t now hu
  -- an entry of the old map that stays and has a lifespan is a survivor of lifespan > 0
  have hsurv : ∀ x ∈ t.items, x.2.lifespan ≠ 0 ∧ expiredAt now x.2 = false →
      x ∈ (t.expirationCheck now).table.items ∧ 0 < x.2.lifespan := by
    intro x hx hl
    refine ⟨by rw [hitems]; exact List.mem_filter.mpr ⟨hx, by simp [hl.2]⟩, ?_⟩
    have hpos := remaining_pos hl
    have hacc := hclock x hx
    unfold remaining at hpos
    linarith
  have hzero_or : (t.expirationCheck now).table.cleanupInterval = 0 ∨
      ∃ e ∈ (t.expirationCheck now).table.items, 0 < e.2.lifespan ∧
        (t.expirationCheck now).table.cleanupInterval =
          e.2.lifespan - (now - e.2.accessedOn) := by
    rcases hD with h0 | ⟨x, hx, hl, hm⟩
    · exact Or.inl h0
    · obtain ⟨hmem, hpos⟩ := hsurv x hx hl
      exact Or.inr ⟨x, hmem, hpos, hm⟩
  refine ⟨?_, ?_, ?_, ?_, harm⟩
  · intro e he hpos
    exact (hle e he (ne_of_gt hpos)).2
  · rintro ⟨e, he, hpos⟩
    rcases hzero_or with h0 | h
    · exact absurd h0 (ne_of_gt (hle e he (ne_of_gt hpos)).1)
    · exact h
  · intro hnone
    rcases hzero_or with h0 | ⟨e, he, hpos, _⟩
    · exact h0
    · exact absurd hpos (hnone e he)
  · constructor
    · intro hp
      by_contra hn
      rw [CacheTable.timerPending, hstop hn] at hp
      cases hc : t.cleanupTimer <;> simp [hc] at hp
    · intro hpos
      rw [CacheTable.timerPending, harm hpos]

/-- C16, scenario: on the table holding "i" (10ms), "j" (immortal) and "k" (20ms), all
accessed at 0, a sweep at 5ms leaves `cleanupInterval` 5ms, the time left of "i", and arms
a timer for 5ms; a sweep at 50ms leaves only "j", `cleanupInterval` 0 and no timer
pending. -/
theorem sweep_schedule_is_minimum_witness :
    UniqueKeys watched.items ∧ (∀ e ∈ watched.items, e.2.accessedOn ≤ 5 * ms) ∧
    (watched.expirationCheck (5 * ms)).table.cleanupInterval = 5 * ms ∧
    (watched.expirationCheck (5 * ms)).table.cleanupTimer = some ⟨5 * ms, true⟩ ∧
    (watched.expirationCheck (50 * ms)).table.cleanupInterval = 0 ∧
    (watched.expirationCheck (50 * ms)).table.timerPending = false := by
  have hu : UniqueKeys watched.items := by decide
  have hclock : ∀ e ∈ watched.items, e.2.accessedOn ≤ 5 * ms := by decide
  have h := sweep_schedule_is_minimum watched (5 * ms) hu hclock
  have hint : (watched.expirationCheck (5 * ms)).table.cleanupInterval = 5 * ms := by decide
  refine ⟨hu, hclock, hint, ?_, by decide, by decide⟩
  have := h.2.2.2.2 (by rw [hint]; decide)
  rw [hint] at this
  exact this

/-- The calls of `addInternal`, in full. -/
theorem addInternal_trace_eq (t : CacheTable κ ν) (item : CacheItem κ ν) (sweepNow : Time) :
    (t.addInternal item sweepNow).trace =
      t.addedItem.map (fun callback =>
        Event.addedItem callback item (mapSet t.items item.key item)) ++
      (if item.lifespan > 0 ∧ (t.cleanupInterval = 0 ∨ item.lifespan < t.cleanupInterval) then
        (({ t with items := mapSet t.items item.key item } : CacheTable κ ν).expirationCheck
          sweepNow).trace
      else []) := by
  unfold CacheTable.addInternal
  simp only []
  split
  · rfl
  · simp

/-- The table after `addInternal`: the table after the sweep of the map that holds the
new entry when the test for a sweep passes, and the table with the new entry stored and
nothing else changed when it does not. -/
theorem addInternal_table (t : CacheTable κ ν) (item : CacheItem κ ν) (sweepNow : Time) :
    (t.addInternal item sweepNow).table =
      if item.lifespan > 0 ∧ (t.cleanupInterval = 0 ∨ item.lifespan < t.cleanupInterval) then
        (({ t with items := mapSet t.items item.key item } : CacheTable κ ν).expirationCheck
          sweepNow).table
      else { t with items := mapSet t.items item.key item } := by
  unfold CacheTable.addInternal
  simp only []
  split <;> rfl

/-- A sweep that leaves `cleanupInterval` positive calls `time.AfterFunc` with it. -/
theorem sweep_arm_call (stored : CacheTable κ ν) (now : Time)
    (hpos : 0 < (stored.expirationCheck now).table.cleanupInterval) :
    Event.afterFunc (stored.expirationCheck now).table.cleanupInterval ∈
      (stored.expirationCheck now).trace := by
  rw [expirationCheck_trace]
  apply List.mem_append_right
  simp [armCalls, hpos]

/-- A sweep that finds an entry of positive lifespan accessed before it and less than a
lifespan ago leaves the table armed, by a timer of its own, for at most that lifespan. -/
theorem sweep_arms_for (stored : CacheTable κ ν) (key : κ) (item : CacheItem κ ν) (now : Time)
    (hget : mapGet stored.items key = some item)
    (honly : ∀ e ∈ stored.items, e.1 = key → e.2 = item)
    (hL : 0 < item.lifespan) (hafter : item.accessedOn ≤ now)
    (hsoon : now - item.accessedOn < item.lifespan) :
    (stored.expirationCheck now).table.Armed ∧
    (stored.expirationCheck now).table.cleanupInterval ≤ item.lifespan ∧
    (stored.expirationCheck now).table.cleanupTimer =
      some ⟨(stored.expirationCheck now).table.cleanupInterval, true⟩ ∧
    Event.afterFunc (stored.expirationCheck now).table.cleanupInterval ∈
      (stored.expirationCheck now).trace := by
  have hkept : mapGet (stored.expirationCheck now).table.items key = mapGet stored.items key := by
    apply expirationCheck_keeps
    intro e he hk
    have : ¬ item.lifespan ≤ now - item.accessedOn := not_le.mpr hsoon
    simp [honly e he hk, expiredAt, this]
  have hsurv := mapGet_mem (hkept.trans hget)
  obtain ⟨hpos, hle⟩ := (expirationCheck_interval_le stored now).2 _ hsurv (ne_of_gt hL)
  have harm := (expirationCheck_schedule stored now).2.1 hpos
  have hleL : (stored.expirationCheck now).table.cleanupInterval ≤ item.lifespan := by
    have : remaining now item ≤ item.lifespan := by
      simp only [remaining]
      linarith
    exact le_trans hle this
  exact ⟨⟨hpos, _, harm, rfl, rfl⟩, hleL, harm, sweep_arm_call stored now hpos⟩

/-- C17. An insert runs a sweep exactly when its lifespan `L` is positive and the
previous `cleanupInterval` is 0 or greater than `L`: the table is then the one the sweep
of the map with the new entry leaves; otherwise the new entry is stored and
`cleanupInterval` and the timer are unchanged.  On an idle or armed table (a flushed
table is idle), an insert with `L > 0` whose sweep, if any, reads the clock after the
entry's creation and less than `L` after it leaves the table armed, with
`0 < cleanupInterval ≤ L`; when the sweep was run the timer is one armed by that sweep,
by a call of `time.AfterFunc` with `cleanupInterval` made during the insert. -/
theorem insert_arms_or_tightens (t : CacheTable κ ν) (key : κ) (L : Duration) (value : ν)
    (clock : AddClock) :
    ((0 < L ∧ (t.cleanupInterval = 0 ∨ L < t.cleanupInterval)) →
      (t.Add key L value clock).table =
        (({ t with
            items := mapSet t.items key
              (NewCacheItem key value L clock.created clock.accessed) } :
          CacheTable κ ν).expirationCheck clock.sweep).table) ∧
    (¬ (0 < L ∧ (t.cleanupInterval = 0 ∨ L < t.cleanupInterval)) →
      (t.Add key L value clock).table =
          { t with
            items := mapSet t.items key
              (NewCacheItem key value L clock.created clock.accessed) } ∧
        (t.Add key L value clock).table.cleanupInterval = t.cleanupInterval ∧
        (t.Add key L value clock).table.cleanupTimer = t.cleanupTimer) ∧
    (t.Idle ∨ t.Armed → 0 < L → clock.accessed ≤ clock.sweep →
      clock.sweep - clock.accessed < L →
      (t.Add key L value clock).table.Armed ∧
        0 < (t.Add key L value clock).table.cleanupInterval ∧
        (t.Add key L value clock).table.cleanupInterval ≤ L ∧
        ((t.cleanupInterval = 0 ∨ L < t.cleanupInterval) →
          (t.Add key L value clock).table.cleanupTimer =
            some ⟨(t.Add key L value clock).table.cleanupInterval, true⟩ ∧
          Event.afterFunc (t.Add key L value clock).table.cleanupInterval ∈
            (t.Add key L value clock).trace)) := by
  have htab : (t.Add key L value clock).table =
      (t.addInternal (NewCacheItem key value L clock.created clock.accessed) clock.sweep).table :=
    rfl
  have hbranch := addInternal_table t (NewCacheItem key value L clock.created clock.accessed)
    clock.sweep
  have hsweep : (0 < L ∧ (t.cleanupInterval = 0 ∨ L < t.cleanupInterval)) →
      (t.Add key L value clock).table =
        (({ t with
            items := mapSet t.items key
              (NewCacheItem key value L clock.created clock.accessed) } :
          CacheTable κ ν).expirationCheck clock.sweep).table := by
    intro hc
    rw [htab, hbranch]
    exact if_pos hc
  have hnone : ¬ (0 < L ∧ (t.cleanupInterval = 0 ∨ L < t.cleanupInterval)) →
      (t.Add key L value clock).table =
        { t with
          items := mapSet t.items key
            (NewCacheItem key value L clock.created clock.accessed) } := by
    intro hc
    rw [htab, hbranch]
    exact if_neg hc
  refine ⟨hsweep, fun hc => ⟨hnone hc, by rw [hnone hc], by rw [hnone hc]⟩, ?_⟩
  intro hstate hL hafter hsoon
  by_cases hc : t.cleanupInterval = 0 ∨ L < t.cleanupInterval
  · rw [hsweep ⟨hL, hc⟩]
    have hswept := sweep_arms_for
      ({ t with
          items := mapSet t.items key
            (NewCacheItem key value L clock.created clock.accessed) } : CacheTable κ ν)
      key (NewCacheItem key value L clock.created clock.accessed) clock.sweep
      (mapGet_mapSet_self _ _ _) (storedWith_mapSet_self _ _ _).2 hL hafter hsoon
    have htr : (t.Add key L value clock).trace =
        t.addedItem.map (fun callback =>
          Event.addedItem callback (NewCacheItem key value L clock.created clock.accessed)
            (mapSet t.items key (NewCacheItem key value L clock.created clock.accessed))) ++
        (({ t with
            items := mapSet t.items key
              (NewCacheItem key value L clock.created clock.accessed) } :
          CacheTable κ ν).expirationCheck clock.sweep).trace := by
      show (t.addInternal _ _).trace = _
      rw [addInternal_trace_eq]
      rw [if_pos (show (NewCacheItem key value L clock.created clock.accessed).lifespan > 0 ∧
        (t.cleanupInterval = 0 ∨
          (NewCacheItem key value L clock.created clock.accessed).lifespan
            < t.cleanupInterval) from ⟨hL, hc⟩)]
      rfl
    exact ⟨hswept.1, hswept.1.1, hswept.2.1,
      fun _ => ⟨hswept.2.2.1, by rw [htr]; exact List.mem_append_right _ hswept.2.2.2⟩⟩
  · have hno : ¬ (0 < L ∧ (t.cleanupInterval = 0 ∨ L < t.cleanupInterval)) := fun h => hc h.2
    rw [hnone hno]
    have hne : t.cleanupInterval ≠ 0 := fun h => hc (Or.inl h)
    have hleL : t.cleanupInterval ≤ L := not_lt.mp (fun h => hc (Or.inr h))
    rcases hstate with hidle | harmed
    · exact absurd hidle.1 hne
    · exact ⟨harmed, harmed.1, hleL, fun h => absurd h hc⟩

/-- C17, scenario.  `watched` is armed with `cleanupInterval` 10ms.  An insert of
lifespan 5ms at 1ms tightens the schedule to 5ms; an insert of lifespan 50ms leaves it
at 10ms; after `Flush`, an insert of lifespan 30ms arms the table again, for 30ms. -/
theorem insert_arms_or_tightens_witness :
    watched.Armed ∧ watched.Flush.table.Idle ∧
    (watched.Add "n" (5 * ms) "v" ⟨1 * ms, 1 * ms, 1 * ms⟩).table.cleanupInterval = 5 * ms ∧
    (watched.Add "n" (50 * ms) "v" ⟨1 * ms, 1 * ms, 1 * ms⟩).table.cleanupInterval = 10 * ms ∧
    (watched.Flush.table.Add "n" (30 * ms) "v" ⟨100 * ms, 100 * ms, 100 * ms⟩).table.Armed ∧
    (watched.Flush.table.Add "n" (30 * ms) "v"
      ⟨100 * ms, 100 * ms, 100 * ms⟩).table.cleanupInterval = 30 * ms := by
  have harmed : watched.Armed := ⟨by decide, ⟨10 * ms, true⟩, rfl, rfl, rfl⟩
  have hidle : watched.Flush.table.Idle := ⟨rfl, rfl⟩
  have h := (insert_arms_or_tightens watched.Flush.table "n" (30 * ms) "v"
    ⟨100 * ms, 100 * ms, 100 * ms⟩).2.2 (Or.inl hidle) (by decide) (by decide) (by decide)
  exact ⟨harmed, hidle, by decide, by decide, h.1, by decide⟩

end Schedule

/-! ## The postcondition of an insert -/

section InsertPost

variable {κ ν : Type} [DecidableEq κ]

/-- The calls of a sweep are about entries of the map that meet the expiry test. -/
theorem sweep_fold_trace_expired (now : Time) (xs : List (κ × CacheItem κ ν)) :
    ∀ s : SweepState κ ν, KeyedByItemKey s.table.items →
      ∀ ev ∈ (xs.foldl (expirationStep now) s).trace,
        ev ∈ s.trace ∨ ∃ x ∈ xs, expiredAt now x.2 = true ∧ ev.removalKey = some x.1 := by
  induction xs with
  | nil => intro s _ ev hev; exact Or.inl hev
  | cons x rest ih =>
    intro s hkeyed ev hev
    obtain ⟨_, _, _, hk1⟩ := expirationStep_trace now s x hkeyed
    rw [List.foldl_cons] at hev
    rcases ih (expirationStep now s x) hk1 ev hev with h | ⟨y, hy, hexp, hkey⟩
    · rw [expirationStep_trace_eq] at h
      rcases List.mem_append.mp h with h | h
      · exact Or.inl h
      · by_cases hexp : expiredAt now x.2 = true
        · rw [if_pos hexp] at h
          refine Or.inr ⟨x, List.mem_cons_self _ _, hexp, ?_⟩
          cases hg : mapGet s.table.items x.1 with
          | none => simp [CacheTable.deleteInternal, hg] at h
          | some item =>
            rw [deleteInternal_trace hg] at h
            exact removalCalls_key (hkeyed _ (mapGet_mem hg)) ev h
        · rw [if_neg hexp] at h
          simp at h
    · exact Or.inr ⟨y, List.mem_cons_of_mem _ hy, hexp, hkey⟩

theorem expirationCheck_trace_expired (t : CacheTable κ ν) (now : Time)
    (hkeyed : KeyedByItemKey t.items) :
    ∀ ev ∈ (t.expirationCheck now).trace,
      ev.isArm = true ∨ ∃ x ∈ t.items, expiredAt now x.2 = true ∧ ev.removalKey = some x.1 := by
  intro ev hev
  rw [expirationCheck_trace] at hev
  rcases List.mem_append.mp hev with hm | hm
  · rcases sweep_fold_trace_expired now t.items
      ⟨{ t with cleanupTimer := t.cleanupTimer.map (fun tm => { tm with active := false }) },
        0, []⟩ hkeyed ev hm with h | h
    · simp at h
    · exact Or.inr h
  · exact Or.inl (armCalls_isArm _ ev hm)

/-- Overwriting a key of a map that holds each key once does not change the number of
entries. -/
theorem length_mapDelete_of_present {items : List (κ × CacheItem κ ν)} (hu : UniqueKeys items)
    {key : κ} {old : CacheItem κ ν} (hget : mapGet items key = some old) :
    (mapDelete items key).length + 1 = items.length := by
  induction items with
  | nil => simp [mapGet] at hget
  | cons e rest ih =>
    have hu' : e.1 ∉ rest.map Prod.fst ∧ UniqueKeys rest := by
      simpa [UniqueKeys] using hu
    rw [mapDelete_cons]
    by_cases hk : e.1 = key
    · have hnone : mapGet rest key = none := by
        rw [mapGet_eq_none_iff]
        intro x hx hxk
        exact hu'.1 (hk ▸ hxk ▸ List.mem_map_of_mem Prod.fst hx)
      simp [hk, mapDelete_of_absent hnone]
    · simp only [mapGet, hk, if_false] at hget
      simp [hk, ih hu'.2 hget]

/-- C12, as stated, fails: `NewCacheItem` reads the clock twice, first for `createdOn`
and then for `accessedOn`.  With the readings 0 and 1 the entry that `Add` stores and
returns has `createdOn` 0 and `accessedOn` 1: the two are not equal, and no single
insertion time is both. -/
theorem add_created_accessed_counterexample :
    mapGet ((newTable "t" : CacheTable String String).Add "k" 0 "v" ⟨0, 1, 1⟩).table.items "k"
      = some ((newTable "t" : CacheTable String String).Add "k" 0 "v" ⟨0, 1, 1⟩).result ∧
    ((newTable "t" : CacheTable String String).Add "k" 0 "v" ⟨0, 1, 1⟩).result.createdOn = 0 ∧
    ((newTable "t" : CacheTable String String).Add "k" 0 "v" ⟨0, 1, 1⟩).result.accessedOn = 1 ∧
    ((newTable "t" : CacheTable String String).Add "k" 0 "v" ⟨0, 1, 1⟩).result.createdOn ≠
      ((newTable "t" : CacheTable String String).Add "k" 0 "v" ⟨0, 1, 1⟩).result.accessedOn := by
  decide

/-- C12, amended.  `Add(key, L, value)` with any clock readings, with `L = 0` or with the
sweep of the insert reading the clock less than `L` after the reading stored in
`accessedOn`, on a map that holds each key once and each entry under its own key:
afterwards `Exists(key)` is true and the entry under `key`, the one `Add` returns, has
value `value`, lifespan `L`, `accessCount` 0, `createdOn` the first clock reading of
`NewCacheItem` and `accessedOn` its second.  No pre-delete or pre-remove call of the
`Add` is about `key`, so an entry the key held before is replaced without a call; with
`L = 0` the `Add` makes no such call at all, `Count` is unchanged when the key was
present and one more when it was absent. -/
theorem add_postcondition (t : CacheTable κ ν) (key : κ) (value : ν) (L : Duration)
    (clock : AddClock) (hu : UniqueKeys t.items) (hkeyed : KeyedByItemKey t.items)
    (hL : L = 0 ∨ clock.sweep - clock.accessed < L) :
    (t.Add key L value clock).table.Exists key = true ∧
    (∃ stored, mapGet (t.Add key L value clock).table.items key = some stored ∧
      (t.Add key L value clock).result = stored ∧
      stored.value = value ∧ stored.lifespan = L ∧ stored.accessCount = 0 ∧
      stored.createdOn = clock.created ∧ stored.accessedOn = clock.accessed) ∧
    (∀ ev ∈ (t.Add key L value clock).trace, ev.removalKey ≠ some key) ∧
    (L = 0 → ∀ ev ∈ (t.Add key L value clock).trace, ev.isRemoval = false) ∧
    (L = 0 → (∀ old, mapGet t.items key = some old →
        (t.Add key L value clock).table.Count = t.Count) ∧
      (mapGet t.items key = none →
        (t.Add key L value clock).table.Count = t.Count + 1)) := by
  have hstored : mapGet (t.Add key L value clock).table.items key =
      some (NewCacheItem key value L clock.created clock.accessed) := by
    apply add_stores
    rcases hL with h | h
    · exact Or.inl (le_of_eq h)
    · exact Or.inr h
  have htrace : (t.Add key L value clock).trace =
      (t.addInternal (NewCacheItem key value L clock.created clock.accessed)
        clock.sweep).trace := rfl
  have halive : expiredAt clock.sweep
      (NewCacheItem key value L clock.created clock.accessed) = false := by
    rcases hL with h | h
    · simp [expiredAt, NewCacheItem, h]
    · have : ¬ L ≤ clock.sweep - clock.accessed := not_le.mpr h
      simp [expiredAt, NewCacheItem, this]
  refine ⟨by simp [CacheTable.Exists, hstored], ⟨_, hstored, rfl, rfl, rfl, rfl, rfl, rfl⟩,
    ?_, ?_, ?_⟩
  · intro ev hev
    rw [htrace, addInternal_trace_eq] at hev
    rcases List.mem_append.mp hev with h | h
    · obtain ⟨cb, _, rfl⟩ := List.mem_map.mp h
      simp [Event.removalKey]
    · split at h
      · have hk : KeyedByItemKey (mapSet t.items key
            (NewCacheItem key value L clock.created clock.accessed)) := by
          intro e he
          rcases mem_mapSet he with ⟨hmem, _⟩ | rfl
          · exact hkeyed e hmem
          · rfl
        rcases expirationCheck_trace_expired
          ({ t with
              items := mapSet t.items key
                (NewCacheItem key value L clock.created clock.accessed) } :
            CacheTable κ ν) clock.sweep hk ev h with harm | ⟨x, hx, hexp, hkey⟩
        · cases ev <;> simp [Event.isArm, Event.removalKey] at harm ⊢
        · rw [hkey]
          intro hc
          have hxk : x.1 = key := Option.some.inj hc
          rcases mem_mapSet hx with ⟨_, hne⟩ | rfl
          · exact hne hxk
          · rw [halive] at hexp
            exact Bool.false_ne_true hexp
      · simp at h
  · intro h0 ev hev
    subst h0
    rw [(add_zero_lifespan t key value clock).2] at hev
    obtain ⟨cb, _, rfl⟩ := List.mem_map.mp hev
    rfl
  · intro h0
    subst h0
    have htab := (add_zero_lifespan t key value clock).1
    constructor
    · intro old hold
      rw [htab]
      simp only [CacheTable.Count, mapSet, List.length_append, List.length_singleton]
      exact length_mapDelete_of_present hu hold
    · intro hnone
      rw [htab]
      simp only [CacheTable.Count, mapSet, List.length_append, List.length_singleton]
      rw [mapDelete_of_absent hnone]

/-- C12, amended, scenario: on the table holding "i", "j" and "k", `Add("k", 0, "new")` with
the clock readings 60ms, 61ms and 62ms replaces the entry of "k", which had the
pre-remove callbacks 7 and 8 (the table has the pre-delete callbacks 1 and 2), with no
other call than the on-insert callback 5, and leaves three entries; the new entry has
`createdOn` 60ms and `accessedOn` 61ms. -/
theorem add_postcondition_witness :
    UniqueKeys watched.items ∧ KeyedByItemKey watched.items ∧
    mapGet watched.items "k" = some watchedK ∧
    mapGet (watched.Add "k" 0 "new" ⟨60 * ms, 61 * ms, 62 * ms⟩).table.items "k" =
      some (NewCacheItem "k" "new" 0 (60 * ms) (61 * ms)) ∧
    (watched.Add "k" 0 "new" ⟨60 * ms, 61 * ms, 62 * ms⟩).trace =
      [.addedItem 5 (NewCacheItem "k" "new" 0 (60 * ms) (61 * ms))
        [("i", watchedI), ("j", watchedJ), ("k", NewCacheItem "k" "new" 0 (60 * ms) (61 * ms))]] ∧
    (watched.Add "k" 0 "new" ⟨60 * ms, 61 * ms, 62 * ms⟩).table.Count = 3 := by
  have h := add_postcondition watched "k" "new" 0 ⟨60 * ms, 61 * ms, 62 * ms⟩ (by decide)
    (by decide) (Or.inl rfl)
  obtain ⟨stored, hs, hres, _⟩ := h.2.1
  refine ⟨by decide, by decide, by decide, ?_, by decide, ?_⟩
  · rw [hs, ← hres]
    rfl
  · exact ((h.2.2.2.2 rfl).1 watchedK (by decide)).trans (by decide)

end InsertPost

/-! ## The table never wakes up late -/

section WakeUp

variable {κ ν : Type} [DecidableEq κ]

omit [DecidableEq κ] in
/-- Calls none of which is a call of `time.AfterFunc` arm no timer. -/
theorem armedDelay_quiet {calls : List (Event κ ν)}
    (h : ∀ ev ∈ calls, ev.armDelay = none) : armedDelay calls = none := by
  have hnil : calls.filterMap Event.armDelay = [] := by
    induction calls with
    | nil => rfl
    | cons ev rest ih =>
      rw [List.filterMap_cons, h ev (List.mem_cons_self _ _)]
      exact ih (fun x hx => h x (List.mem_cons_of_mem _ hx))
  unfold armedDelay
  rw [hnil]
  rfl

omit [DecidableEq κ] in
theorem armDelay_of_removal {ev : Event κ ν} (h : ev.isRemoval = true) :
    ev.armDelay = none := by
  cases ev <;> first | rfl | exact absurd h (by simp [Event.isRemoval])

/-- The timer a sweep arms: one with the delay `cleanupInterval` when that is positive,
none otherwise. -/
theorem armedDelay_sweep (t : CacheTable κ ν) (now : Time) (before : List (Event κ ν))
    (hbefore : ∀ ev ∈ before, ev.armDelay = none) :
    armedDelay (before ++ (t.expirationCheck now).trace) =
      if 0 < (t.expirationCheck now).table.cleanupInterval then
        some (t.expirationCheck now).table.cleanupInterval
      else none := by
  obtain ⟨calls, h, hc⟩ := sweep_fold_trace_removal now t.items
    ⟨{ t with cleanupTimer := t.cleanupTimer.map (fun tm => { tm with active := false }) },
      0, []⟩
  rw [expirationCheck_trace, h, List.nil_append, ← List.append_assoc]
  have hquiet : ∀ ev ∈ before ++ calls, ev.armDelay = none := by
    intro ev hev
    rcases List.mem_append.mp hev with hm | hm
    · exact hbefore ev hm
    · exact armDelay_of_removal (hc ev hm)
  by_cases hpos : 0 < (t.expirationCheck now).table.cleanupInterval
  · rw [if_pos hpos]
    unfold armedDelay armCalls
    rw [if_pos hpos, List.filterMap_append]
    simp [Event.armDelay]
  · rw [if_neg hpos]
    unfold armCalls
    rw [if_neg hpos, List.append_nil]
    exact armedDelay_quiet hquiet

/-- A sweep that reaches `time.AfterFunc` at most `lag` after it read the clock leaves
the schedule in order, whatever it was. -/
theorem onTime_sweep (lag : Duration) (t : CacheTable κ ν) (now armed : Time)
    (previous : Option Time) (before : List (Event κ ν))
    (hbefore : ∀ ev ∈ before, ev.armDelay = none)
    (hacc : ∀ e ∈ t.items, e.2.accessedOn ≤ now) (hnow : now ≤ armed)
    (hlag : armed ≤ now + lag) :
    OnTime lag
      ⟨(t.expirationCheck now).table,
        nextDeadline previous (t.expirationCheck now).table
          (before ++ (t.expirationCheck now).trace) armed⟩ armed := by
  obtain ⟨hnonneg, hle⟩ := expirationCheck_interval_le t now
  have harm := (expirationCheck_schedule t now).2.1
  have hdelay := armedDelay_sweep t now before hbefore
  refine ⟨hnonneg, fun e he => le_trans (hacc e (expirationCheck_subset t now e he)) hnow,
    ?_, ?_⟩
  · intro hpos
    refine ⟨harm hpos, armed, ?_, le_refl _⟩
    show nextDeadline _ _ _ _ = _
    unfold nextDeadline
    rw [hdelay, if_pos hpos]
  · intro e he hlife
    obtain ⟨hpos, hrem⟩ := hle e he (ne_of_gt hlife)
    refine ⟨hpos, ?_⟩
    intro d hd
    have hd' : nextDeadline previous (t.expirationCheck now).table
        (before ++ (t.expirationCheck now).trace) armed = some d := hd
    unfold nextDeadline at hd'
    rw [hdelay, if_pos hpos] at hd'
    have hdeq : armed + (t.expirationCheck now).table.cleanupInterval = d :=
      Option.some.inj hd'
    simp only [remaining] at hrem
    rw [← hdeq]
    linarith

omit [DecidableEq κ] in
/-- A call that reaches no `time.AfterFunc` and leaves the timer and `cleanupInterval`
as they were keeps the schedule in order when the entries it leaves are in order. -/
theorem onTime_quiet (lag : Duration) (s : Timeline κ ν) (lo hi armed : Time)
    (table : CacheTable κ ν) (calls : List (Event κ ν))
    (h : OnTime lag s lo) (hle : lo ≤ hi)
    (hcalls : ∀ ev ∈ calls, ev.armDelay = none)
    (hinterval : table.cleanupInterval = s.table.cleanupInterval)
    (htimer : table.cleanupTimer = s.table.cleanupTimer)
    (hitems : ∀ e ∈ table.items, e.2.accessedOn ≤ hi ∧
      (0 < e.2.lifespan → 0 < s.table.cleanupInterval ∧
        ∀ d, s.deadline = some d → d ≤ e.2.accessedOn + e.2.lifespan + lag)) :
    OnTime lag ⟨table, nextDeadline s.deadline table calls armed⟩ hi := by
  obtain ⟨ha, _, hc, _⟩ := h
  have hnext : nextDeadline s.deadline table calls armed =
      if table.timerPending then s.deadline else none := by
    unfold nextDeadline
    rw [armedDelay_quiet hcalls]
  refine ⟨by rw [hinterval]; exact ha, fun e he => (hitems e he).1, ?_, ?_⟩
  · intro hpos
    have hpos' : 0 < s.table.cleanupInterval := by rw [← hinterval]; exact hpos
    obtain ⟨htm, a, hdead, hale⟩ := hc hpos'
    have hpending : table.timerPending = true := by
      unfold CacheTable.timerPending
      rw [htimer, htm]
    refine ⟨by rw [htimer, htm, hinterval], a, ?_, le_trans hale hle⟩
    show nextDeadline _ _ _ _ = _
    rw [hnext, hpending, hinterval]
    exact hdead
  · intro e he hlife
    obtain ⟨hpos, hdead⟩ := (hitems e he).2 hlife
    refine ⟨by rw [hinterval]; exact hpos, ?_⟩
    intro d hd
    have hd' : nextDeadline s.deadline table calls armed = some d := hd
    rw [hnext] at hd'
    split at hd'
    · exact hdead d hd'
    · exact absurd hd' (by simp)

omit [DecidableEq κ] in
theorem armDelay_addedItem (cbs : List Callback) (item : CacheItem κ ν)
    (seen : List (κ × CacheItem κ ν)) :
    ∀ ev ∈ cbs.map (fun callback => Event.addedItem callback item seen),
      ev.armDelay = none := by
  intro ev hev
  obtain ⟨cb, _, rfl⟩ := List.mem_map.mp hev
  rfl

/-- An insert keeps the schedule in order. -/
theorem onTime_addInternal (lag : Duration) (s : Timeline κ ν) (item : CacheItem κ ν)
    (lo sweepNow armed : Time) (before : List (Event κ ν))
    (hbefore : ∀ ev ∈ before, ev.armDelay = none)
    (h : OnTime lag s lo) (hlo : lo ≤ item.accessedOn) (hafter : item.accessedOn ≤ sweepNow)
    (hnow : sweepNow ≤ armed) (hlag : armed ≤ sweepNow + lag) :
    OnTime lag
      ⟨(s.table.addInternal item sweepNow).table,
        nextDeadline s.deadline (s.table.addInternal item sweepNow).table
          (before ++ (s.table.addInternal item sweepNow).trace) armed⟩ armed := by
  have hacc : ∀ e ∈ mapSet s.table.items item.key item, e.2.accessedOn ≤ sweepNow := by
    intro e he
    rcases mem_mapSet he with ⟨hmem, _⟩ | rfl
    · exact le_trans (h.2.1 e hmem) (le_trans hlo hafter)
    · exact hafter
  have hadded := armDelay_addedItem s.table.addedItem item (mapSet s.table.items item.key item)
  rw [addInternal_table, addInternal_trace_eq]
  split
  · rw [← List.append_assoc]
    refine onTime_sweep lag _ sweepNow armed s.deadline _ ?_ hacc hnow hlag
    intro ev hev
    rcases List.mem_append.mp hev with hm | hm
    · exact hbefore ev hm
    · exact hadded ev hm
  · rename_i hcond
    rw [List.append_nil]
    refine onTime_quiet lag s lo armed armed _ _ h
      (le_trans hlo (le_trans hafter hnow)) ?_ rfl rfl ?_
    · intro ev hev
      rcases List.mem_append.mp hev with hm | hm
      · exact hbefore ev hm
      · exact hadded ev hm
    · intro e he
      refine ⟨le_trans (hacc e he) hnow, ?_⟩
      intro hlife
      rcases mem_mapSet he with ⟨hmem, _⟩ | rfl
      · exact h.2.2.2 e hmem hlife
      · have hne : s.table.cleanupInterval ≠ 0 := fun h0 => hcond ⟨hlife, Or.inl h0⟩
        have hge : s.table.cleanupInterval ≤ item.lifespan :=
          not_lt.mp (fun hlt => hcond ⟨hlife, Or.inr hlt⟩)
        have hpos : 0 < s.table.cleanupInterval := lt_of_le_of_ne h.1 (Ne.symm hne)
        refine ⟨hpos, ?_⟩
        intro d hd
        obtain ⟨_, a, hdead, hale⟩ := h.2.2.1 hpos
        have hdeq : a + s.table.cleanupInterval = d := Option.some.inj (hdead.symm.trans hd)
        rw [← hdeq]
        show a + s.table.cleanupInterval ≤ item.accessedOn + item.lifespan + lag
        linarith

/-- Every call keeps the schedule in order. -/
theorem onTime_step (lag : Duration) (s : Timeline κ ν) (c : TimedOp κ ν) (lo : Time)
    (h : OnTime lag s lo) (hop : c.op.within lo) (hnow : c.op.finish lo ≤ c.armed)
    (hlag : c.armed ≤ c.op.finish lo + lag) : OnTime lag (s.step c) c.armed := by
  obtain ⟨op, armed⟩ := c
  have hkeep : ∀ hi, lo ≤ hi → hi ≤ armed → ∀ calls : List (Event κ ν),
      (∀ ev ∈ calls, ev.armDelay = none) →
      OnTime lag ⟨s.table, nextDeadline s.deadline s.table calls armed⟩ armed := by
    intro hi h1 h2 calls hcalls
    exact onTime_quiet lag s lo armed armed s.table calls h (le_trans h1 h2) hcalls rfl rfl
      (fun e he => ⟨le_trans (h.2.1 e he) (le_trans h1 h2), h.2.2.2 e he⟩)
  have hnil : ∀ ev ∈ ([] : List (Event κ ν)), ev.armDelay = none :=
    fun ev hev => absurd hev (List.not_mem_nil ev)
  cases op with
  | add key L v clock =>
    have := onTime_addInternal lag s (NewCacheItem key v L clock.created clock.accessed) lo
      clock.sweep armed [] hnil h (le_trans hop.1 hop.2.1) hop.2.2 hnow hlag
    rw [List.nil_append] at this
    exact this
  | notFoundAdd key L v clock =>
    show OnTime lag ⟨(s.table.NotFoundAdd key L v clock).table,
      nextDeadline s.deadline (s.table.NotFoundAdd key L v clock).table
        (s.table.NotFoundAdd key L v clock).trace armed⟩ armed
    unfold CacheTable.NotFoundAdd
    split
    · exact hkeep clock.sweep (le_trans hop.1 (le_trans hop.2.1 hop.2.2)) hnow [] hnil
    · have := onTime_addInternal lag s (NewCacheItem key v L clock.created clock.accessed) lo
        clock.sweep armed [] hnil h (le_trans hop.1 hop.2.1) hop.2.2 hnow hlag
      rw [List.nil_append] at this
      exact this
  | value key args now clock =>
    have hlonow : lo ≤ now := hop.1
    have hsweep : now ≤ clock.sweep := le_trans hop.2.1 (le_trans hop.2.2.1 hop.2.2.2)
    have hfin : clock.sweep ≤ armed := hnow
    show OnTime lag ⟨(s.table.Value key args now clock).table,
      nextDeadline s.deadline (s.table.Value key args now clock).table
        (s.table.Value key args now clock).trace armed⟩ armed
    unfold CacheTable.Value
    split
    · refine onTime_quiet lag s lo armed armed _ [] h
        (le_trans hlonow (le_trans hsweep hfin)) hnil rfl rfl ?_
      intro e he
      obtain ⟨x, hx, rfl⟩ := List.mem_map.mp he
      by_cases hk : x.1 = key
      · simp only [hk, if_true]
        refine ⟨le_trans hsweep hfin, ?_⟩
        intro hlife
        obtain ⟨hpos, hdead⟩ := h.2.2.2 x hx hlife
        refine ⟨hpos, fun d hd => ?_⟩
        have hold := hdead d hd
        have hxa := h.2.1 x hx
        show d ≤ now + x.2.lifespan + lag
        linarith
      · simp only [hk, if_false]
        exact ⟨le_trans (h.2.1 x hx) (le_trans hlonow (le_trans hsweep hfin)),
          h.2.2.2 x hx⟩
    · split
      · split
        · rename_i item _
          have hload : ∀ ev ∈ [Event.loadValue key args], ev.armDelay = (none : Option Duration) := by
            intro ev hev
            rw [List.mem_singleton.mp hev]
            rfl
          exact onTime_addInternal lag s
            (NewCacheItem key item.value item.lifespan clock.created clock.accessed) lo
            clock.sweep armed [Event.loadValue key args] hload h
            (le_trans hlonow (le_trans hop.2.1 hop.2.2.1)) hop.2.2.2 hnow hlag
        · refine hkeep clock.sweep (le_trans hlonow hsweep) hfin [Event.loadValue key args] ?_
          intro ev hev
          rw [List.mem_singleton.mp hev]
          rfl
      · exact hkeep clock.sweep (le_trans hlonow hsweep) hfin [] hnil
  | delete key =>
    show OnTime lag ⟨(s.table.Delete key).table,
      nextDeadline s.deadline (s.table.Delete key).table (s.table.Delete key).trace armed⟩ armed
    have htrace : ∀ ev ∈ (s.table.Delete key).trace, ev.armDelay = none := by
      intro ev hev
      exact armDelay_of_removal (deleteInternal_trace_removal s.table key ev hev)
    refine onTime_quiet lag s lo armed armed _ _ h hnow htrace ?_ ?_ ?_
    · show (s.table.deleteInternal key).table.cleanupInterval = _
      rw [deleteInternal_table]
    · show (s.table.deleteInternal key).table.cleanupTimer = _
      rw [deleteInternal_table]
    · intro e he
      have hmem : e ∈ s.table.items := by
        have he' : e ∈ (s.table.deleteInternal key).table.items := he
        rw [deleteInternal_table] at he'
        exact (List.mem_filter.mp he').1
      exact ⟨le_trans (h.2.1 e hmem) hnow, h.2.2.2 e hmem⟩
  | flush =>
    refine ⟨le_refl _, ?_, ?_, ?_⟩
    · intro e he
      exact absurd he (List.not_mem_nil e)
    · intro hpos
      exact absurd hpos (lt_irrefl _)
    · intro e he
      exact absurd he (List.not_mem_nil e)
  | expirationCheck now =>
    have := onTime_sweep lag s.table now armed s.deadline [] hnil
      (fun e he => le_trans (h.2.1 e he) hop) hnow hlag
    rw [List.nil_append] at this
    exact this
  | timerFires now =>
    have hlonow : lo ≤ now := hop
    have hfin : now ≤ armed := hnow
    show OnTime lag ⟨(s.table.timerFires now).table,
      nextDeadline s.deadline (s.table.timerFires now).table
        (s.table.timerFires now).trace armed⟩ armed
    unfold CacheTable.timerFires
    split
    · split
      · have hsw : ∀ t : CacheTable κ ν, (∀ e ∈ t.items, e.2.accessedOn ≤ now) →
            OnTime lag ⟨(t.expirationCheck now).table,
              nextDeadline s.deadline (t.expirationCheck now).table
                (t.expirationCheck now).trace armed⟩ armed := by
          intro t hacc
          have := onTime_sweep lag t now armed s.deadline [] hnil hacc hfin hlag
          rw [List.nil_append] at this
          exact this
        exact hsw _ (fun e he => le_trans (h.2.1 e he) hlonow)
      · exact hkeep now hlonow hfin [] hnil
    · exact hkeep now hlonow hfin [] hnil

theorem onTime_run (lag : Duration) :
    ∀ (ops : List (TimedOp κ ν)) (s : Timeline κ ν) (lo : Time),
      OnTime lag s lo → timedOrdered lag lo ops → ∃ hi, OnTime lag (ops.foldl Timeline.step s) hi := by
  intro ops
  induction ops with
  | nil => intro s lo h _; exact ⟨lo, h⟩
  | cons c rest ih =>
    intro s lo h hclock
    exact ih (s.step c) c.armed (onTime_step lag s c lo h hclock.1 hclock.2.1 hclock.2.2.1)
      hclock.2.2.2

/-- The table of a timeline is the table the calls produce. -/
theorem timeline_table (ops : List (TimedOp κ ν)) :
    ∀ (s : Timeline κ ν),
      (ops.foldl Timeline.step s).table = run s.table (ops.map TimedOp.op) := by
  induction ops with
  | nil => intro s; rfl
  | cons c rest ih =>
    intro s
    rw [List.foldl_cons, ih]
    rfl

/-- C18, counterexample.  On an empty table with no sweep scheduled, "i" is inserted for
10ms and "k2" for 100ms, both at time 0, and the timer fires at its deadline, 10ms.  Its
sweep reads the clock at 10ms, removes "i", calling the pre-delete callback, and then, at
1010ms, calls `time.AfterFunc` with the 90ms that "k2" had left at 10ms.  No clock reading
is earlier than the one before it.  The table then holds "k2", accessed at 0 with
lifespan 100ms, and a pending timer whose deadline is 1100ms: that is not the time of the
arming sweep plus `cleanupInterval`, which is 100ms, and it is later than
`accessedOn + lifespan` of "k2". -/
theorem wakes_late_counterexample :
    slowTable.items = [] ∧ slowTable.cleanupInterval = 0 ∧ slowTable.timerPending = false ∧
    timedOrdered (1000 * ms) 0 lateRun ∧
    (timeline slowTable (lateRun.take 2)).deadline = some (10 * ms) ∧
    lateRun.drop 2 = [⟨.timerFires (10 * ms), 1010 * ms⟩] ∧
    ((Op.timerFires (10 * ms)).calls (timeline slowTable (lateRun.take 2)).table).map
      Event.armDelay = [none, some (90 * ms)] ∧
    (timeline slowTable lateRun).table.items.map
      (fun e => (e.1, e.2.lifespan, e.2.accessedOn)) = [("k2", 100 * ms, 0)] ∧
    (timeline slowTable lateRun).table.timerPending = true ∧
    (timeline slowTable lateRun).table.cleanupInterval = 90 * ms ∧
    (timeline slowTable lateRun).deadline = some (1100 * ms) ∧
    10 * ms + (timeline slowTable lateRun).table.cleanupInterval = 100 * ms ∧
    ¬ (∀ e ∈ (timeline slowTable lateRun).table.items, 0 < e.2.lifespan →
        ∀ d, (timeline slowTable lateRun).deadline = some d →
          d ≤ e.2.accessedOn + e.2.lifespan) := by
  have hclock : timedOrdered (1000 * ms) 0 lateRun := by
    simp only [lateRun, timedOrdered, Op.within, Op.finish]
    decide
  have hitems : (timeline slowTable lateRun).table.items =
      [("k2", NewCacheItem "k2" "w" (100 * ms) 0 0)] := by decide
  have hdead : (timeline slowTable lateRun).deadline = some (1100 * ms) := by decide
  refine ⟨rfl, rfl, rfl, hclock, by decide, rfl, by decide, by decide, by decide, by decide,
    hdead, by decide, ?_⟩
  intro hall
  have hlate := hall ("k2", NewCacheItem "k2" "w" (100 * ms) 0 0)
    (by rw [hitems]; exact List.mem_singleton.mpr rfl) (by decide) (1100 * ms) hdead
  exact absurd hlate (by decide)

/-- C18, amended.  Start from an empty table with no sweep scheduled and make any sequence
of `Add`, `NotFoundAdd`, `Value`, `Delete`, `Flush`, sweeps and timer firings whose clock
readings do not go back and in which every sweep reaches `time.AfterFunc` at most `lag`
after it read the clock.  In the state reached, for every entry with lifespan > 0 a sweep
timer is pending, its delay is `cleanupInterval`, and its deadline, the time of the call
of `time.AfterFunc` that armed it plus `cleanupInterval`, is no later than `lag` after
`accessedOn + lifespan` of the entry. -/
theorem wakes_within_lag (t0 : CacheTable κ ν) (start : Time) (lag : Duration)
    (ops : List (TimedOp κ ν))
    (hempty : t0.items = []) (hidle : t0.cleanupInterval = 0)
    (hclock : timedOrdered lag start ops) :
    (timeline t0 ops).table = run t0 (ops.map TimedOp.op) ∧
    ∀ e ∈ (timeline t0 ops).table.items, 0 < e.2.lifespan →
      ∃ tm d, (timeline t0 ops).table.cleanupTimer = some tm ∧ tm.active = true ∧
        tm.delay = (timeline t0 ops).table.cleanupInterval ∧
        (timeline t0 ops).deadline = some d ∧
        d ≤ e.2.accessedOn + e.2.lifespan + lag := by
  have hstart : OnTime lag (⟨t0, none⟩ : Timeline κ ν) start := by
    refine ⟨le_of_eq hidle.symm, ?_, ?_, ?_⟩
    · intro e he
      have he' : e ∈ t0.items := he
      rw [hempty] at he'
      exact absurd he' (List.not_mem_nil e)
    · intro hpos
      have hpos' : 0 < t0.cleanupInterval := hpos
      rw [hidle] at hpos'
      exact absurd hpos' (lt_irrefl _)
    · intro e he
      have he' : e ∈ t0.items := he
      rw [hempty] at he'
      exact absurd he' (List.not_mem_nil e)
  obtain ⟨hi, _, _, hc, hd⟩ := onTime_run lag ops ⟨t0, none⟩ start hstart hclock
  refine ⟨timeline_table ops ⟨t0, none⟩, ?_⟩
  intro e he hlife
  obtain ⟨hpos, hdead⟩ := hd e he hlife
  obtain ⟨htm, a, hdl, _⟩ := hc hpos
  exact ⟨_, _, htm, rfl, rfl, hdl, hdead _ hdl⟩

/-- C18, scenario: in `lateRun` the sweep of the timer reaches `time.AfterFunc` one second
after it read the clock, and no other call takes any time.  The timer left pending has the
delay 90ms and the deadline 1100ms, one second after the expiry of "k2", the only
entry. -/
theorem wakes_within_lag_witness :
    timedOrdered (1000 * ms) 0 lateRun ∧
    (timeline slowTable lateRun).table.cleanupTimer = some ⟨90 * ms, true⟩ ∧
    (timeline slowTable lateRun).deadline = some (1100 * ms) ∧
    ∀ e ∈ (timeline slowTable lateRun).table.items, 0 < e.2.lifespan →
      ∃ tm d, (timeline slowTable lateRun).table.cleanupTimer = some tm ∧ tm.active = true ∧
        tm.delay = (timeline slowTable lateRun).table.cleanupInterval ∧
        (timeline slowTable lateRun).deadline = some d ∧
        d ≤ e.2.accessedOn + e.2.lifespan + 1000 * ms := by
  have hclock : timedOrdered (1000 * ms) 0 lateRun := by
    simp only [lateRun, timedOrdered, Op.within, Op.finish]
    decide
  exact ⟨hclock, by decide, by decide,
    (wakes_within_lag slowTable 0 (1000 * ms) lateRun rfl rfl hclock).2⟩

end WakeUp

end Ckcache
